import Mathlib

/-!
Verification of the xCDN-C core (lexer, recursive-descent parser, document
model, serializer) against its natural-language specification.

The C sources are shallowly embedded over `List Char`, one Lean definition
per C function, keeping the C names.  Bytes of the input are modelled as
`Char` values (the code only ever compares bytes against ASCII literals and
passes everything else through verbatim).  C strings terminate at the first
NUL byte; the helper `cstr` is applied exactly where the C code uses
`strlen` / `strcmp` / `strdup` on a buffer that may contain interior NULs.
Source positions (offset / line / column) and error message texts are not
modelled: no claim concerns them; errors are modelled by their kind alone.
The parser functions take a fuel argument (outer `Option` is fuel
exhaustion, which never occurs for the fuel supplied by `xcdn_parse`);
everything is structurally recursive so that concrete runs reduce in the
kernel.
-/

set_option maxRecDepth 8000

namespace XCDN

/-- NUL byte as a character; C strings terminate at the first NUL. -/
def nulc : Char := Char.ofNat 0

/-- C-string view of a byte list: everything before the first NUL
(the semantics of `strlen` / `strdup` / `strcmp` on the buffer). -/
def cstr (s : List Char) : List Char := s.takeWhile (fun c => c ≠ nulc)

/-- Whitespace recognised by `skip_ws_and_comments` in lexer.h. -/
def is_ws (c : Char) : Bool := c = ' ' ∨ c = '\t' ∨ c = '\r' ∨ c = '\n'

/-- Mirror of `is_ident_start` in lexer.h: `[A-Za-z_]`. -/
def is_ident_start (c : Char) : Bool :=
  decide (('A' ≤ c ∧ c ≤ 'Z') ∨ ('a' ≤ c ∧ c ≤ 'z') ∨ c = '_')

/-- Mirror of `is_ident_part` in lexer.h: `[A-Za-z0-9_\-]`. -/
def is_ident_part (c : Char) : Bool :=
  is_ident_start c || decide ('0' ≤ c ∧ c ≤ '9') || decide (c = '-')

/-- Decimal digit `[0-9]`. -/
def is_digit (c : Char) : Bool := decide ('0' ≤ c ∧ c ≤ '9')

/-- Mirror of C `isxdigit` in the default locale: `[0-9A-Fa-f]`. -/
def isxdigit (c : Char) : Bool :=
  is_digit c || decide (('a' ≤ c ∧ c ≤ 'f') ∨ ('A' ≤ c ∧ c ≤ 'F'))

/-- Mirror of C `isalnum` in the default locale: `[0-9A-Za-z]`. -/
def isalnum (c : Char) : Bool :=
  is_digit c || decide (('a' ≤ c ∧ c ≤ 'z') ∨ ('A' ≤ c ∧ c ≤ 'Z'))

/-- Error kinds of error.h (`xcdn_error_kind_t`); `XCDN_ERR_NONE` is
represented by `Option.none` around this type. -/
inductive ErrKind where
  | eof
  | invalidToken
  | expected
  | invalidEscape
  | invalidNumber
  | invalidDecimal
  | invalidDateTime
  | invalidDuration
  | invalidUUID
  | invalidBase64
  | message
  | outOfMemory
deriving DecidableEq, Repr

/-- Tokens of lexer.h (`xcdn_token_t`).  String-carrying tokens hold the
raw byte payload produced by the lexer.  A `FLOAT` token carries the
(possibly 127-byte-truncated) lexeme text that the C code hands to
`strtod`: IEEE-754 semantics are outside this embedding and no claim
depends on the numeric value of a float. -/
inductive Tok where
  | lbrace | rbrace | lbracket | rbracket | lparen | rparen
  | colon | comma | dollar | hash | at
  | tTrue | tFalse | tNull
  | ident (s : List Char)
  | int (v : Int)
  | float (lexeme : List Char)
  | str (s : List Char)
  | tripleStr (s : List Char)
  | dQ (s : List Char)
  | bQ (s : List Char)
  | uQ (s : List Char)
  | tQ (s : List Char)
  | rQ (s : List Char)
  | eof
deriving DecidableEq, Repr

/-- Token kinds (`xcdn_token_type_t`), used where the C parser switches on
`tok.type` only. -/
inductive TokTy where
  | lbrace | rbrace | lbracket | rbracket | lparen | rparen
  | colon | comma | dollar | hash | at
  | tTrue | tFalse | tNull
  | ident | int | float | str | tripleStr
  | dQ | bQ | uQ | tQ | rQ
  | eof
deriving DecidableEq, Repr

/-- Kind of a token. -/
def Tok.ty : Tok → TokTy
  | .lbrace => .lbrace | .rbrace => .rbrace
  | .lbracket => .lbracket | .rbracket => .rbracket
  | .lparen => .lparen | .rparen => .rparen
  | .colon => .colon | .comma => .comma
  | .dollar => .dollar | .hash => .hash | .at => .at
  | .tTrue => .tTrue | .tFalse => .tFalse | .tNull => .tNull
  | .ident _ => .ident | .int _ => .int | .float _ => .float
  | .str _ => .str | .tripleStr _ => .tripleStr
  | .dQ _ => .dQ | .bQ _ => .bQ | .uQ _ => .uQ | .tQ _ => .tQ | .rQ _ => .rQ
  | .eof => .eof

/-- String payload of a token (`tok.data.string_val.str`); `[]` for tokens
that carry none. -/
def Tok.payload : Tok → List Char
  | .ident s | .str s | .tripleStr s
  | .dQ s | .bQ s | .uQ s | .tQ s | .rQ s => s
  | _ => []

/-! ### skip_ws_and_comments

The C loop alternates between three modes: normal scanning, inside a
`//` line comment, inside a `/* */` block comment.  An unterminated block
comment at EOF is consumed without error, exactly as in the C code. -/

/-- Scanning mode of `skip_ws_and_comments`. -/
inductive SkipMode where
  | top | line | block
deriving DecidableEq

/-- Worker for `skip_ws_and_comments` (lexer.h): drops whitespace and
`//` / `/* */` comments from the front of the input. -/
def skip_go : List Char → SkipMode → List Char
  | [], _ => []
  | c :: rest, .line => if c = '\n' then skip_go rest .top else skip_go rest .line
  | '*' :: '/' :: rest, .block => skip_go rest .top
  | _ :: rest, .block => skip_go rest .block
  | '/' :: '/' :: rest, .top => skip_go rest .line
  | '/' :: '*' :: rest, .top => skip_go rest .block
  | c :: rest, .top => if is_ws c then skip_go rest .top else c :: rest

/-- Mirror of `skip_ws_and_comments` in lexer.h. -/
def skip_ws_and_comments (s : List Char) : List Char := skip_go s .top

/-! ### read_string -/

/-- Prepend one produced byte to the payload of a string-body scan
(`strbuf_push` of one byte before the rest of the loop's output). -/
def esc_cons (c : Char) :
    Except ErrKind (List Char × List Char) →
      Except ErrKind (List Char × List Char)
  | .ok pr => .ok (c :: pr.1, pr.2)
  | .error k => .error k

/-- Body scan of `read_string` (lexer.h) for an ordinary `"…"` string, the
opening quote already consumed.  Returns the accumulated payload and the
input remaining after the closing quote.  Escapes: `\"` and `\\` are
decoded; `\/ \b \f \n \r \t` are re-emitted as the two-byte escape;
`\uXXXX` checks its four hex digits (fewer than four bytes before EOF is
also `INVALID_ESCAPE`, matching the `h < 0` check) and is re-emitted
verbatim; anything else is `INVALID_ESCAPE`. -/
def read_str_body : List Char → Except ErrKind (List Char × List Char)
  | [] => .error .eof
  | '"' :: rest => .ok ([], rest)
  | '\\' :: [] => .error .invalidEscape
  | '\\' :: 'u' :: h1 :: h2 :: h3 :: h4 :: rest4 =>
    if isxdigit h1 && isxdigit h2 && isxdigit h3 && isxdigit h4 then
      esc_cons '\\' (esc_cons 'u' (esc_cons h1 (esc_cons h2 (esc_cons h3
        (esc_cons h4 (read_str_body rest4))))))
    else .error .invalidEscape
  | '\\' :: 'u' :: _ => .error .invalidEscape
  | '\\' :: e :: rest =>
    if e = '"' then esc_cons '"' (read_str_body rest)
    else if e = '\\' then esc_cons '\\' (read_str_body rest)
    else if e = '/' ∨ e = 'b' ∨ e = 'f' ∨ e = 'n' ∨ e = 'r' ∨ e = 't' then
      esc_cons '\\' (esc_cons e (read_str_body rest))
    else .error .invalidEscape
  | c :: rest => esc_cons c (read_str_body rest)

/-- Body scan of `read_string` (lexer.h) for a triple-quoted string, the
three opening quotes already consumed: no escape processing, terminator is
a literal `"""`. -/
def read_triple_body : List Char → Except ErrKind (List Char × List Char)
  | '"' :: '"' :: '"' :: rest => .ok ([], rest)
  | [] => .error .eof
  | c :: rest =>
    match read_triple_body rest with
    | .ok pr => .ok (c :: pr.1, pr.2)
    | .error k => .error k

/-! ### read_number -/

/-- Digit-accumulation loop of `read_number` (lexer.h).  Consumes digits,
at most one `.` (before any exponent), and at most one `e`/`E` with an
optional immediately following sign.  Returns
`(consumed, rest, has_dot, has_exp, has_digit)`.  Once `has_exp` is set,
the C loop can only accept further digits (both the `.` branch and the
`e` branch require `!has_exp`), so the scan after the exponent marker is
expressed as a digit run, which keeps the recursion structural. -/
def num_loop : List Char → Bool → Bool → Bool →
    List Char × List Char × Bool × Bool × Bool
  | [], hasDot, hasExp, hasDigit => ([], [], hasDot, hasExp, hasDigit)
  | c :: rest, hasDot, hasExp, hasDigit =>
    if is_digit c then
      let r := num_loop rest hasDot hasExp true
      (c :: r.1, r.2)
    else if c = '.' ∧ hasDot = false ∧ hasExp = false then
      let r := num_loop rest true hasExp hasDigit
      (c :: r.1, r.2)
    else if (c = 'e' ∨ c = 'E') ∧ hasExp = false then
      match rest with
      | s :: rest2 =>
        if s = '+' ∨ s = '-' then
          let ds := rest2.takeWhile is_digit
          (c :: s :: ds, rest2.dropWhile is_digit, hasDot, true,
            hasDigit || !ds.isEmpty)
        else
          let ds := (s :: rest2).takeWhile is_digit
          (c :: ds, (s :: rest2).dropWhile is_digit, hasDot, true,
            hasDigit || !ds.isEmpty)
      | [] => ([c], [], hasDot, true, hasDigit)
    else ([], c :: rest, hasDot, hasExp, hasDigit)

/-- Value of a digit string (most significant first). -/
def digitsVal : List Char → Nat
  | [] => 0
  | c :: rest => digitsVal rest + c.toNat % 48 * 10 ^ rest.length

/-- Model of C `strtoll(tmp, &endp, 10)` combined with the checks
`errno == ERANGE || endp == tmp` made by `read_number`: an optional sign
followed by leading digits; `none` when there is no digit at all or the
value leaves the signed 64-bit range `[-2^63, 2^63 - 1]`. -/
def strtoll (s : List Char) : Option Int :=
  let neg : Bool := match s with | '-' :: _ => true | _ => false
  let t := match s with
    | '-' :: r => r
    | '+' :: r => r
    | _ => s
  let ds := t.takeWhile is_digit
  if ds = [] then none
  else
    let v : Int := if neg then -(digitsVal ds : Int) else (digitsVal ds : Int)
    if v < -(2 ^ 63) ∨ (2 ^ 63 - 1 : Int) < v then none else some v

/-- Model of the `endp == tmp` check after C `strtod`: conversion happens
iff the mantissa (after an optional sign) contains at least one digit.
The `ERANGE` overflow/underflow check on the double is outside this
embedding (IEEE-754); no claim depends on it. -/
def strtod_ok (s : List Char) : Bool :=
  let t := match s with
    | '-' :: r => r
    | '+' :: r => r
    | _ => s
  (t.takeWhile (fun c => is_digit c || c = '.')).any is_digit

/-- Mirror of `read_number` in lexer.h.  Consumes an optional sign then the
`num_loop` span; requires at least one digit; copies at most 127 bytes of
the lexeme into the conversion buffer `tmp` (`char tmp[128]`); converts
`tmp` with `strtoll` (INT) or `strtod` (FLOAT).  Returns the token (EOF on
error), the remaining input, and the error, mirroring how
`xcdn_lexer_next` surfaces `read_number` failures. -/
def read_number (s : List Char) : Tok × List Char × Option ErrKind :=
  let sgn : List Char := match s with
    | c :: _ => if c = '+' ∨ c = '-' then [c] else []
    | [] => []
  let s1 : List Char := match s with
    | c :: rest => if c = '+' ∨ c = '-' then rest else s
    | [] => []
  let r := num_loop s1 false false false
  let body := r.1
  let rest := r.2.1
  let hasDot := r.2.2.1
  let hasExp := r.2.2.2.1
  let hasDigit := r.2.2.2.2
  if hasDigit = false then (.eof, rest, some .invalidNumber)
  else
    let tmp := (sgn ++ body).take 127
    if hasDot || hasExp then
      if strtod_ok tmp then (.float tmp, rest, none)
      else (.eof, rest, some .invalidNumber)
    else
      match strtoll tmp with
      | some v => (.int v, rest, none)
      | none => (.eof, rest, some .invalidNumber)

/-! ### xcdn_lexer_next -/

/-- Typed-quoted token constructor for a type character `d b u t r`. -/
def typedTok (c : Char) (s : List Char) : Tok :=
  if c = 'd' then .dQ s
  else if c = 'b' then .bQ s
  else if c = 'u' then .uQ s
  else if c = 't' then .tQ s
  else .rQ s

/-- Mirror of `xcdn_lexer_next` in lexer.h: skip whitespace and comments,
then dispatch in source order on the first byte.  Returns the token, the
remaining input, and the error slot (the C function zeroes `*err` on entry
and returns an EOF token when it sets an error). -/
def xcdn_lexer_next (s : List Char) : Tok × List Char × Option ErrKind :=
  let t := skip_ws_and_comments s
  match t with
  | [] => (.eof, [], none)
  | b :: rest =>
    if b = '"' ∧ rest.head? = some '"' ∧ (rest.drop 1).head? = some '"' then
      match read_triple_body (rest.drop 2) with
      | .ok pr => (.tripleStr pr.1, pr.2, none)
      | .error k => (.eof, [], some k)
    else if b = '{' then (.lbrace, rest, none)
    else if b = '}' then (.rbrace, rest, none)
    else if b = '[' then (.lbracket, rest, none)
    else if b = ']' then (.rbracket, rest, none)
    else if b = '(' then (.lparen, rest, none)
    else if b = ')' then (.rparen, rest, none)
    else if b = ':' then (.colon, rest, none)
    else if b = ',' then (.comma, rest, none)
    else if b = '$' then (.dollar, rest, none)
    else if b = '#' then (.hash, rest, none)
    else if b = '@' then (.at, rest, none)
    else if b = '"' then
      match read_str_body rest with
      | .ok pr => (.str pr.1, pr.2, none)
      | .error k => (.eof, [], some k)
    else if b = '.' ∨ b = '-' ∨ b = '+' ∨ is_digit b then
      read_number t
    else if (b = 'd' ∨ b = 'b' ∨ b = 'u' ∨ b = 't' ∨ b = 'r') ∧
        rest.head? = some '"' then
      match read_str_body (rest.drop 1) with
      | .ok pr => (typedTok b pr.1, pr.2, none)
      | .error k => (.eof, [], some k)
    else if is_ident_start b then
      let id := b :: rest.takeWhile is_ident_part
      let r2 := rest.dropWhile is_ident_part
      if id = "true".toList then (.tTrue, r2, none)
      else if id = "false".toList then (.tFalse, r2, none)
      else if id = "null".toList then (.tNull, r2, none)
      else (.ident id, r2, none)
    else (.eof, t, some .invalidToken)

/-! ## AST / document model (ast.h, ast.c)

`xcdn_value_t` / `xcdn_node_t` are a mutually recursive family.  The child
containers (`Nodes`, `Entries`, `Anns`, `Values`) are declared inside the
mutual block rather than as `List …` so that every recursion over the tree
is structural, hence kernel-computable.  An object entry is
`(key, node)`; an annotation is `(name, argument values)`; argument
values are plain Values, never Nodes, exactly as in ast.h. -/

mutual
inductive Value where
  | vnull
  | vbool (b : Bool)
  | vint (i : Int)
  | vfloat (lx : List Char)
  | vdec (s : List Char)
  | vstr (s : List Char)
  | vbytes (bs : List Nat)
  | vdt (s : List Char)
  | vdur (s : List Char)
  | vuuid (s : List Char)
  | varr (items : Nodes)
  | vobj (entries : Entries)
deriving Repr
inductive Node where
  | mk (anns : Anns) (tags : List (List Char)) (value : Value)
deriving Repr
inductive Nodes where
  | nil
  | cons (head : Node) (tail : Nodes)
deriving Repr
inductive Entries where
  | nil
  | cons (key : List Char) (node : Node) (tail : Entries)
deriving Repr
inductive Anns where
  | nil
  | cons (name : List Char) (args : Values) (tail : Anns)
deriving Repr
inductive Values where
  | nil
  | cons (head : Value) (tail : Values)
deriving Repr
end

/-- Annotations of a node. -/
def Node.anns : Node → Anns
  | .mk a _ _ => a

/-- Tags of a node. -/
def Node.tags : Node → List (List Char)
  | .mk _ t _ => t

/-- Value of a node. -/
def Node.value : Node → Value
  | .mk _ _ v => v

/-- Append a node at the end (`xcdn_array_push` order). -/
def Nodes.snoc : Nodes → Node → Nodes
  | .nil, n => .cons n .nil
  | .cons h t, n => .cons h (t.snoc n)

/-- Append a value at the end (`xcdn_annotation_push_arg` order). -/
def Values.snoc : Values → Value → Values
  | .nil, v => .cons v .nil
  | .cons h t, v => .cons h (t.snoc v)

/-- Append an annotation at the end (`xcdn_node_add_annotation` order).
The C parser first appends the annotation with an empty argument vector
and then pushes each parsed argument into it; the embedding appends the
completed annotation after collecting the arguments, which yields the same
final node. -/
def Anns.snoc : Anns → List Char → Values → Anns
  | .nil, n, a => .cons n a .nil
  | .cons n0 a0 t, n, a => .cons n0 a0 (t.snoc n a)

/-- Document (`xcdn_document_t`): prolog directives (name, value) in order,
then the value stream. -/
structure Doc where
  prolog : List (List Char × Value)
  values : List Node
deriving Repr

/-- Mirror of `xcdn_object_set` in ast.c: if some existing entry's key
compares `strcmp`-equal, replace that entry's node in place (keeping the
stored key and its position); otherwise append a new entry whose key is
`strdup`-ed (hence truncated at NUL). -/
def xcdn_object_set : Entries → List Char → Node → Entries
  | .nil, k, n => .cons (cstr k) n .nil
  | .cons k0 n0 t, k, n =>
    if cstr k0 = cstr k then .cons k0 n t
    else .cons k0 n0 (xcdn_object_set t k n)

/-- Mirror of `xcdn_object_get` in ast.c: first entry whose key compares
`strcmp`-equal. -/
def xcdn_object_get : Entries → List Char → Option Node
  | .nil, _ => none
  | .cons k0 n0 t, k => if cstr k0 = cstr k then some n0 else xcdn_object_get t k

/-- Number of object entries (`xcdn_object_len`). -/
def Entries.length : Entries → Nat
  | .nil => 0
  | .cons _ _ t => 1 + t.length

/-- Keys of the entries in order (`xcdn_object_key_at` for each index). -/
def Entries.keys : Entries → List (List Char)
  | .nil => []
  | .cons k _ t => k :: t.keys

/-! ### xcdn_get_path (ast.c) -/

/-- List `dropWhile` never lengthens a list. -/
theorem dropWhile_len_le (p : Char → Bool) (l : List Char) :
    (l.dropWhile p).length ≤ l.length := by
  induction l with
  | nil => simp [List.dropWhile]
  | cons c rest ih =>
    simp only [List.dropWhile]
    split
    · exact Nat.le_trans ih (Nat.le_succ _)
    · exact Nat.le_refl _

/-- Mirror of `strtok_r(buf, ".", …)` iteration in `xcdn_get_path`: the
maximal runs of non-`.` characters, in order; empty tokens are never
produced.  Defined by fuel (one unit per produced token; a token consumes
at least one character, so the `s.length` units supplied by `strtok_dots`
always suffice). -/
def strtok_go : Nat → List Char → List (List Char)
  | 0, _ => []
  | fuel + 1, s =>
    match s.dropWhile (fun c => c = '.') with
    | [] => []
    | c :: rest =>
      (c :: rest.takeWhile (fun c => c ≠ '.')) ::
        strtok_go fuel (rest.dropWhile (fun c => c ≠ '.'))

/-- Tokenization used by `xcdn_get_path`. -/
def strtok_dots (s : List Char) : List (List Char) :=
  strtok_go s.length s

/-- Walk of the `while (segment)` loop in `xcdn_get_path`: each remaining
segment requires the current node's value to be an Object and steps to
`xcdn_object_get` of the segment. -/
def get_path_walk : List (List Char) → Node → Option Node
  | [], cur => some cur
  | seg :: rest, cur =>
    match cur.value with
    | .vobj entries =>
      match xcdn_object_get entries seg with
      | some nxt => get_path_walk rest nxt
      | none => none
    | _ => none

/-- Mirror of `xcdn_get_path` in ast.c: start from the first top-level
node (absent if the value stream is empty) and walk the dot-separated
segments of the `strdup`-ed path. -/
def xcdn_get_path (doc : Doc) (path : List Char) : Option Node :=
  match doc.values with
  | [] => none
  | first :: _ => get_path_walk (strtok_dots (cstr path)) first

/-! ## Serializer (ser.c) -/

/-- Format configuration (`xcdn_format_t`). -/
structure Fmt where
  pretty : Bool
  indent : Nat
  trailing_commas : Bool
deriving Repr, DecidableEq

/-- Mirror of `xcdn_format_default`: `{true, 2, true}`. -/
def xcdn_format_default : Fmt := ⟨true, 2, true⟩

/-- Mirror of `xcdn_format_compact`: `{false, 0, false}`. -/
def xcdn_format_compact : Fmt := ⟨false, 0, false⟩

/-- Mirror of `is_simple_ident` in ser.c. -/
def is_simple_ident (s : List Char) : Bool :=
  match s with
  | [] => false
  | c :: rest =>
    (decide (('a' ≤ c ∧ c ≤ 'z') ∨ ('A' ≤ c ∧ c ≤ 'Z') ∨ c = '_')) &&
      rest.all (fun c =>
        decide (('a' ≤ c ∧ c ≤ 'z') ∨ ('A' ≤ c ∧ c ≤ 'Z') ∨
          ('0' ≤ c ∧ c ≤ '9') ∨ c = '_' ∨ c = '-'))

/-- Indentation emitted by `write_indent`: `depth * space` blanks. -/
def write_indent (depth space : Nat) : List Char :=
  List.replicate (depth * space) ' '

/-- Uppercase hexadecimal digit. -/
def hexDigitU (n : Nat) : Char :=
  if n < 10 then Char.ofNat (48 + n) else Char.ofNat (55 + n)

/-- Four-digit uppercase hex as printed by `"\\u%04X"`. -/
def hex4 (n : Nat) : List Char :=
  [hexDigitU (n / 4096 % 16), hexDigitU (n / 256 % 16),
   hexDigitU (n / 16 % 16), hexDigitU (n % 16)]

/-- Mirror of `write_escaped_string` in ser.c; the C loop stops at the
first NUL of the buffer. -/
def write_escaped_string (s : List Char) : List Char :=
  '"' :: escBody (cstr s) ++ ['"']
where
  /-- Per-byte escaping loop of `write_escaped_string`. -/
  escBody : List Char → List Char
  | [] => []
  | c :: rest =>
    (if c = '\\' then ['\\', '\\']
     else if c = '"' then ['\\', '"']
     else if c = '\n' then ['\\', 'n']
     else if c = '\r' then ['\\', 'r']
     else if c = '\t' then ['\\', 't']
     else if c.toNat < 32 then '\\' :: 'u' :: hex4 c.toNat
     else [c]) ++ escBody rest

/-- Mirror of `write_key` in ser.c. -/
def write_key (k : List Char) : List Char :=
  if is_simple_ident k then k else write_escaped_string k

/-- Mirror of the `b64_chars` table in ser.c. -/
def b64_chars (n : Nat) : Char :=
  if n < 26 then Char.ofNat (65 + n)
  else if n < 52 then Char.ofNat (97 + (n - 26))
  else if n < 62 then Char.ofNat (48 + (n - 52))
  else if n = 62 then '+'
  else '/'

/-- Mirror of `b64_encode` in ser.c: full 3-byte groups, then a padded
tail of one or two bytes. -/
def b64_encode : List Nat → List Char
  | b1 :: b2 :: b3 :: rest =>
    let n := b1 % 256 * 65536 + b2 % 256 * 256 + b3 % 256
    b64_chars (n / 262144 % 64) :: b64_chars (n / 4096 % 64) ::
      b64_chars (n / 64 % 64) :: b64_chars (n % 64) :: b64_encode rest
  | [b1, b2] =>
    let n := b1 % 256 * 65536 + b2 % 256 * 256
    [b64_chars (n / 262144 % 64), b64_chars (n / 4096 % 64),
     b64_chars (n / 64 % 64), '=']
  | [b1] =>
    let n := b1 % 256 * 65536
    [b64_chars (n / 262144 % 64), b64_chars (n / 4096 % 64), '=', '=']
  | [] => []

/-- Decimal digits of a natural number; `natDigits 0 = "0"`. -/
def natDigits (n : Nat) : List Char :=
  natDigitsAux n n
where
  /-- Fuel-driven digit emitter (the fuel bounds the division chain). -/
  natDigitsAux : Nat → Nat → List Char
  | 0, n => [Char.ofNat (48 + n % 10)]
  | fuel + 1, n =>
    if n < 10 then [Char.ofNat (48 + n)]
    else natDigitsAux fuel (n / 10) ++ [Char.ofNat (48 + n % 10)]

/-- Decimal text of an integer as printed by `"%" PRId64`. -/
def intChars (i : Int) : List Char :=
  if i < 0 then '-' :: natDigits (-i).toNat else natDigits i.toNat

mutual
/-- Mirror of `write_value` in ser.c.  The FLOAT case in C prints the
stored double with `"%g"`; the embedding stores and re-emits the float's
source lexeme, since IEEE-754 formatting is outside the embedding (no
claim depends on float serialization). -/
def write_value (fmt : Fmt) (depth : Nat) : Value → List Char
  | .vnull => "null".toList
  | .vbool b => if b then "true".toList else "false".toList
  | .vint i => intChars i
  | .vfloat lx => lx
  | .vdec s => 'd' :: '"' :: s ++ ['"']
  | .vstr s => write_escaped_string s
  | .vbytes bs => 'b' :: '"' :: b64_encode bs ++ ['"']
  | .vdt s => 't' :: '"' :: s ++ ['"']
  | .vdur s => 'r' :: '"' :: s ++ ['"']
  | .vuuid s => 'u' :: '"' :: s ++ ['"']
  | .varr items =>
    '[' :: (if fmt.pretty ∧ items matches .cons .. then ['\n'] else []) ++
      write_arr_items fmt depth items ++
      (if fmt.pretty ∧ items matches .cons .. then
        write_indent depth fmt.indent else []) ++ [']']
  | .vobj entries =>
    '{' :: (if fmt.pretty ∧ entries matches .cons .. then ['\n'] else []) ++
      write_obj_entries fmt depth entries ++
      (if fmt.pretty ∧ entries matches .cons .. then
        write_indent depth fmt.indent else []) ++ ['}']

/-- Array-element loop of `write_value`: optional indent, the node, a
comma iff another element follows or `trailing_commas`, optional
newline. -/
def write_arr_items (fmt : Fmt) (depth : Nat) : Nodes → List Char
  | .nil => []
  | .cons n tail =>
    (if fmt.pretty then write_indent (depth + 1) fmt.indent else []) ++
      write_node fmt (depth + 1) n ++
      (if (tail matches .cons ..) ∨ fmt.trailing_commas then [','] else []) ++
      (if fmt.pretty then ['\n'] else []) ++
      write_arr_items fmt depth tail

/-- Object-entry loop of `write_value`: optional indent, the key, `": "`,
the node, a comma iff another entry follows or `trailing_commas`, optional
newline. -/
def write_obj_entries (fmt : Fmt) (depth : Nat) : Entries → List Char
  | .nil => []
  | .cons k n tail =>
    (if fmt.pretty then write_indent (depth + 1) fmt.indent else []) ++
      write_key k ++ ':' :: ' ' :: write_node fmt (depth + 1) n ++
      (if (tail matches .cons ..) ∨ fmt.trailing_commas then [','] else []) ++
      (if fmt.pretty then ['\n'] else []) ++
      write_obj_entries fmt depth tail

/-- Mirror of `write_node` in ser.c: each annotation then each tag, each
followed by one blank, then the value. -/
def write_node (fmt : Fmt) (depth : Nat) : Node → List Char
  | .mk anns tags v =>
    write_anns anns ++
      (tags.map (fun t => '#' :: t ++ [' '])).flatten ++
      write_value fmt depth v

/-- Annotation loop of `write_node`, using `write_annotation`:
`@name(arg, arg)` with arguments always in compact format, or `@name`
when there are no arguments; one blank after each annotation. -/
def write_anns : Anns → List Char
  | .nil => []
  | .cons name args tail =>
    '@' :: name ++
      (match args with
       | .nil => []
       | .cons .. => '(' :: write_ann_args args ++ [')']) ++
      ' ' :: write_anns tail

/-- Argument loop of `write_annotation`: `", "` between arguments, each
serialized with `xcdn_format_compact` at depth 0. -/
def write_ann_args : Values → List Char
  | .nil => []
  | .cons v tail =>
    write_value xcdn_format_compact 0 v ++
      (match tail with
       | .nil => []
       | .cons .. => ',' :: ' ' :: write_ann_args tail)
end

/-- Mirror of `xcdn_to_string_with_format` in ser.c: prolog directives
(`$name: value`, a comma iff `trailing_commas`, each on its own line, a
blank line between directives when pretty), then the value stream with a
newline separator between nodes iff pretty. -/
def xcdn_to_string_with_format (doc : Doc) (fmt : Fmt) : List Char :=
  dirsOut doc.prolog true ++ valsOut doc.values true
where
  /-- Prolog loop; the flag is C's `first_dir`. -/
  dirsOut : List (List Char × Value) → Bool → List Char
  | [], _ => []
  | (name, v) :: rest, firstDir =>
    (if ¬firstDir ∧ fmt.pretty then ['\n'] else []) ++
      '$' :: name ++ ':' :: ' ' :: write_value fmt 0 v ++
      (if fmt.trailing_commas then [','] else []) ++ ['\n'] ++
      dirsOut rest false
  /-- Value-stream loop; the flag marks the first node (`i = 0`). -/
  valsOut : List Node → Bool → List Char
  | [], _ => []
  | n :: rest, isFirst =>
    (if ¬isFirst ∧ fmt.pretty then ['\n'] else []) ++
      write_node fmt 0 n ++
      (if (rest matches _ :: _) ∧ fmt.pretty then ['\n'] else []) ++
      valsOut rest false

/-- Mirror of `xcdn_to_string_pretty`. -/
def xcdn_to_string_pretty (doc : Doc) : List Char :=
  xcdn_to_string_with_format doc xcdn_format_default

/-- Mirror of `xcdn_to_string_compact`. -/
def xcdn_to_string_compact (doc : Doc) : List Char :=
  xcdn_to_string_with_format doc xcdn_format_compact

/-! ## Parser (the recursive-descent parser translation unit)

Base64 decoding, UUID validation, the one-token-lookahead parser state,
and the mutually recursive parse functions.  Every parse function takes a
fuel argument; the outer `Option` of a result is `none` only on fuel
exhaustion, which never happens for the fuel supplied by `xcdn_parse`
(each unit of call depth consumes input).  `(none, state)` inside the
`Option` is the C `NULL`-with-error return. -/

/-- Mirror of the `b64_table` in the parser: values for the standard
alphabet plus the URL-safe variants `-` (62) and `_` (63); all other
bytes map to 0 (the C table is zero-initialised), though lookups are
guarded by `is_b64_char`. -/
def b64_table (c : Char) : Nat :=
  if decide ('A' ≤ c ∧ c ≤ 'Z') then c.toNat - 65
  else if decide ('a' ≤ c ∧ c ≤ 'z') then c.toNat - 97 + 26
  else if is_digit c then c.toNat - 48 + 52
  else if c = '+' ∨ c = '-' then 62
  else if c = '/' ∨ c = '_' then 63
  else 0

/-- Mirror of `is_b64_char` in the parser: `isalnum` plus
`+ / - _ =`. -/
def is_b64_char (c : Char) : Bool :=
  isalnum c || decide (c = '+' ∨ c = '/' ∨ c = '-' ∨ c = '_' ∨ c = '=')

/-- Characters the decode loop of `decode_base64` silently skips:
`=` and the whitespace bytes space, LF, CR. -/
def b64_skip (c : Char) : Bool :=
  decide (c = '=' ∨ c = ' ' ∨ c = '\n' ∨ c = '\r')

/-- Bit-accumulation loop of `decode_base64`.  `accum` is a C `uint32_t`
(hence the mod-2^32 reduction), `bits` the number of pending bits
(always < 8 at entry), `out` the emitted bytes in reverse order. -/
def b64_loop : List Char → Nat → Nat → List Nat → Option (List Nat)
  | [], _, _, out => some out.reverse
  | c :: rest, accum, bits, out =>
    if b64_skip c then b64_loop rest accum bits out
    else if ¬ is_b64_char c then none
    else
      let accum2 := (accum * 64 + b64_table c) % 4294967296
      let bits2 := bits + 6
      if 8 ≤ bits2 then
        b64_loop rest accum2 (bits2 - 8) ((accum2 / 2 ^ (bits2 - 8)) % 256 :: out)
      else b64_loop rest accum2 bits2 out

/-- Mirror of `decode_base64` in the parser: strip trailing `=` padding,
then run the 6-bit accumulation loop; `none` is the C `NULL` return for
an invalid character. -/
def decode_base64 (s : List Char) : Option (List Nat) :=
  b64_loop ((s.reverse.dropWhile (fun c => c = '=')).reverse) 0 0 []

/-- Mirror of `validate_uuid` in the parser: `strlen` 36, `-` at offsets
8, 13, 18, 23, hex digits everywhere else. -/
def validate_uuid (s : List Char) : Bool :=
  let t := cstr s
  if t.length ≠ 36 then false
  else if ¬ ([8, 13, 18, 23].all (fun i => t.getD i ' ' = '-')) then false
  else (List.range t.length).all (fun i =>
    decide (i = 8 ∨ i = 13 ∨ i = 18 ∨ i = 23) || isxdigit (t.getD i ' '))

/-- Parser state (`parser_t`): the lexer cursor (remaining input), the
one-token lookahead slot, and the error slot. -/
structure PState where
  rest : List Char
  look : Option Tok
  err : Option ErrKind
deriving Repr

/-- Mirror of `parser_bump`: take the lookahead token if present,
otherwise pull the next token from the lexer (which also overwrites the
error slot, since `xcdn_lexer_next` zeroes `*err` on entry). -/
def parser_bump (p : PState) : Tok × PState :=
  match p.look with
  | some t => (t, { p with look := none })
  | none =>
    let r := xcdn_lexer_next p.rest
    (r.1, ⟨r.2.1, none, r.2.2⟩)

/-- Mirror of `parser_peek_type`: fill the lookahead slot if empty and
return the token kind. -/
def peekTy (p : PState) : TokTy × PState :=
  match p.look with
  | some t => (t.ty, p)
  | none =>
    let r := xcdn_lexer_next p.rest
    (r.1.ty, ⟨r.2.1, some r.1, r.2.2⟩)

/-- Mirror of `parser_expect`: bump and compare the kind; on mismatch set
an `EXPECTED` error and return no token. -/
def parser_expect (p : PState) (k : TokTy) : Option Tok × PState :=
  let r := parser_bump p
  if r.1.ty = k then (some r.1, r.2)
  else (none, { r.2 with err := some .expected })

/-- Mirror of `parse_ident_string`: bump; an IDENT token yields its
payload, anything else is an `EXPECTED` error. -/
def parse_ident_string (p : PState) : Option (List Char) × PState :=
  let r := parser_bump p
  match r.1 with
  | .ident s => (some s, r.2)
  | _ => (none, { r.2 with err := some .expected })

/-- Mirror of `parse_key`: bump; an IDENT or STRING token yields its
payload, anything else is an `EXPECTED` error. -/
def parse_key (p : PState) : Option (List Char) × PState :=
  let r := parser_bump p
  match r.1 with
  | .ident s => (some s, r.2)
  | .str s => (some s, r.2)
  | _ => (none, { r.2 with err := some .expected })

mutual
/-- Mirror of `parse_value`: bump a token (failing on a pending lexer
error) and dispatch on its kind.  `d"…"` stores the decimal text
(`strdup`-truncated), `b"…"` decodes base64 or fails `INVALID_BASE64`,
`u"…"` validates or fails `INVALID_UUID`, `t"…"`/`r"…"` store their text;
`{`/`[` recurse into object/array parsing; anything else is
`EXPECTED`. -/
def parse_value : Nat → PState → Option (Option Value × PState)
  | 0, _ => none
  | fuel + 1, p =>
    let r := parser_bump p
    let t := r.1
    let p := r.2
    if p.err.isSome then some (none, p)
    else
      match t with
      | .lbrace => parse_object fuel .nil p
      | .lbracket => parse_array fuel .nil p
      | .str s => some (some (.vstr s), p)
      | .tripleStr s => some (some (.vstr s), p)
      | .tTrue => some (some (.vbool true), p)
      | .tFalse => some (some (.vbool false), p)
      | .tNull => some (some .vnull, p)
      | .int v => some (some (.vint v), p)
      | .float lx => some (some (.vfloat lx), p)
      | .dQ s => some (some (.vdec (cstr s)), p)
      | .bQ s =>
        match decode_base64 s with
        | some bs => some (some (.vbytes bs), p)
        | none => some (none, { p with err := some .invalidBase64 })
      | .uQ s =>
        if validate_uuid s then some (some (.vuuid (cstr s)), p)
        else some (none, { p with err := some .invalidUUID })
      | .tQ s => some (some (.vdt (cstr s)), p)
      | .rQ s => some (some (.vdur (cstr s)), p)
      | _ => some (none, { p with err := some .expected })

/-- Mirror of the `parse_object` loop (the `{` already consumed by
`parse_value`): stop at `}`; otherwise key, `:`, node, `xcdn_object_set`,
optional comma. -/
def parse_object : Nat → Entries → PState → Option (Option Value × PState)
  | 0, _, _ => none
  | fuel + 1, entries, p =>
    if p.err.isSome then some (none, p)
    else
      let pk := peekTy p
      if pk.1 = .rbrace then
        let r := parser_bump pk.2
        some (some (.vobj entries), r.2)
      else
        let kr := parse_key pk.2
        match kr.1 with
        | none => some (none, kr.2)
        | some key =>
          if kr.2.err.isSome then some (none, kr.2)
          else
            let er := parser_expect kr.2 .colon
            if er.2.err.isSome then some (none, er.2)
            else
              match parse_node fuel er.2 with
              | none => none
              | some (none, p2) => some (none, p2)
              | some (some node, p2) =>
                if p2.err.isSome then some (none, p2)
                else
                  let entries2 := xcdn_object_set entries key node
                  let pk2 := peekTy p2
                  if pk2.1 = .comma then
                    parse_object fuel entries2 (parser_bump pk2.2).2
                  else parse_object fuel entries2 pk2.2

/-- Mirror of the `parse_array` loop (the `[` already consumed): stop at
`]`; otherwise node, `xcdn_array_push`, optional comma. -/
def parse_array : Nat → Nodes → PState → Option (Option Value × PState)
  | 0, _, _ => none
  | fuel + 1, items, p =>
    if p.err.isSome then some (none, p)
    else
      let pk := peekTy p
      if pk.1 = .rbracket then
        let r := parser_bump pk.2
        some (some (.varr items), r.2)
      else
        match parse_node fuel pk.2 with
        | none => none
        | some (none, p2) => some (none, p2)
        | some (some node, p2) =>
          if p2.err.isSome then some (none, p2)
          else
            let pk2 := peekTy p2
            if pk2.1 = .comma then
              parse_array fuel (items.snoc node) (parser_bump pk2.2).2
            else parse_array fuel (items.snoc node) pk2.2

/-- Mirror of the decoration loop of `parse_node`: gather `@name(args?)`
annotations and `#name` tags until something else is seen. -/
def parse_deco : Nat → Anns → List (List Char) → PState →
    Option (Option (Anns × List (List Char)) × PState)
  | 0, _, _, _ => none
  | fuel + 1, anns, tags, p =>
    if p.err.isSome then some (none, p)
    else
      let pk := peekTy p
      if pk.1 = .at then
        let br := parser_bump pk.2
        let nr := parse_ident_string br.2
        match nr.1 with
        | none => some (none, nr.2)
        | some name =>
          if nr.2.err.isSome then some (none, nr.2)
          else
            let pk2 := peekTy nr.2
            if pk2.1 = .lparen then
              let br2 := parser_bump pk2.2
              let pk3 := peekTy br2.2
              if pk3.1 = .rparen then
                let br3 := parser_bump pk3.2
                parse_deco fuel (anns.snoc (cstr name) .nil) tags br3.2
              else
                match parse_ann_args fuel .nil pk3.2 with
                | none => none
                | some (none, p2) => some (none, p2)
                | some (some args, p2) =>
                  parse_deco fuel (anns.snoc (cstr name) args) tags p2
            else parse_deco fuel (anns.snoc (cstr name) .nil) tags pk2.2
      else if pk.1 = .hash then
        let br := parser_bump pk.2
        let nr := parse_ident_string br.2
        match nr.1 with
        | none => some (none, nr.2)
        | some name =>
          if nr.2.err.isSome then some (none, nr.2)
          else parse_deco fuel anns (tags ++ [cstr name]) nr.2
      else some (some (anns, tags), pk.2)

/-- Mirror of the annotation argument loop inside `parse_node`: values
separated by commas until `)`; anything else after an argument is
`EXPECTED`. -/
def parse_ann_args : Nat → Values → PState →
    Option (Option Values × PState)
  | 0, _, _ => none
  | fuel + 1, args, p =>
    match parse_value fuel p with
    | none => none
    | some (none, p2) => some (none, p2)
    | some (some v, p2) =>
      if p2.err.isSome then some (none, p2)
      else
        let args2 := args.snoc v
        let pk := peekTy p2
        if pk.1 = .comma then
          parse_ann_args fuel args2 (parser_bump pk.2).2
        else if pk.1 = .rparen then
          some (some args2, (parser_bump pk.2).2)
        else
          let br := parser_bump pk.2
          some (none, { br.2 with err := some .expected })

/-- Mirror of `parse_node`: gather decorations, then a value. -/
def parse_node : Nat → PState → Option (Option Node × PState)
  | 0, _ => none
  | fuel + 1, p =>
    match parse_deco fuel .nil [] p with
    | none => none
    | some (none, p2) => some (none, p2)
    | some (some dt, p2) =>
      match parse_value fuel p2 with
      | none => none
      | some (none, p3) => some (none, p3)
      | some (some v, p3) =>
        if p3.err.isSome then some (none, p3)
        else some (some (.mk dt.1 dt.2 v), p3)
end

/-- Mirror of the prolog loop of `parse_document`: while the next token
is `$`, read `$ident : node` (the node's decorations are discarded; only
its value is stored) and an optional comma. -/
def parse_prolog : Nat → List (List Char × Value) → PState →
    Option (Option (List (List Char × Value)) × PState)
  | 0, _, _ => none
  | fuel + 1, dirs, p =>
    let pk := peekTy p
    if pk.1 = .dollar then
      if pk.2.err.isSome then some (none, pk.2)
      else
        let br := parser_bump pk.2
        let nr := parse_ident_string br.2
        match nr.1 with
        | none => some (none, nr.2)
        | some name =>
          if nr.2.err.isSome then some (none, nr.2)
          else
            let er := parser_expect nr.2 .colon
            if er.2.err.isSome then some (none, er.2)
            else
              match parse_node fuel er.2 with
              | none => none
              | some (none, p2) => some (none, p2)
              | some (some node, p2) =>
                let dirs2 := dirs ++ [(cstr name, node.value)]
                let pk2 := peekTy p2
                if pk2.1 = .comma then
                  parse_prolog fuel dirs2 (parser_bump pk2.2).2
                else parse_prolog fuel dirs2 pk2.2
    else some (some dirs, pk.2)

/-- Mirror of the implicit-object entry loop of `parse_document`: after
the first `key : node` entry, consume optional commas and further
`key : node` entries until EOF. -/
def parse_implicit : Nat → Entries → PState →
    Option (Option Entries × PState)
  | 0, _, _ => none
  | fuel + 1, entries, p =>
    if p.err.isSome then some (none, p)
    else
      let pk := peekTy p
      if pk.1 = .comma then
        parse_implicit fuel entries (parser_bump pk.2).2
      else if pk.1 = .ident ∨ pk.1 = .str then
        let kr := parse_key pk.2
        match kr.1 with
        | none => some (none, kr.2)
        | some key =>
          if kr.2.err.isSome then some (none, kr.2)
          else
            let er := parser_expect kr.2 .colon
            if er.2.err.isSome then some (none, er.2)
            else
              match parse_node fuel er.2 with
              | none => none
              | some (none, p2) => some (none, p2)
              | some (some node, p2) =>
                parse_implicit fuel (xcdn_object_set entries key node) p2
      else if pk.1 = .eof then some (some entries, pk.2)
      else
        let br := parser_bump pk.2
        some (none, { br.2 with err := some .expected })

/-- Mirror of the value-stream loops of `parse_document` (the loop after a
leading string value and the loop of the general stream branch are
identical): parse nodes until EOF. -/
def parse_stream : Nat → List Node → PState →
    Option (Option (List Node) × PState)
  | 0, _, _ => none
  | fuel + 1, nodes, p =>
    let pk := peekTy p
    if pk.1 = .eof then some (some nodes, pk.2)
    else if pk.2.err.isSome then some (none, pk.2)
    else
      match parse_node fuel pk.2 with
      | none => none
      | some (none, p2) => some (none, p2)
      | some (some n, p2) => parse_stream fuel (nodes ++ [n]) p2

/-- Mirror of the part of `parse_document` that follows the prolog:
two-token lookahead distinguishes an implicit top-level object
(IDENT/STRING followed by `:`) from a value stream; a lone STRING becomes
the first stream value; a lone IDENT is an `EXPECTED` error; EOF yields an
empty stream; anything else parses a stream of nodes. -/
def parse_doc_body : Nat → PState → Option (Option (List Node) × PState)
  | 0, _ => none
  | fuel + 1, p =>
    let pk := peekTy p
    if pk.1 = .ident ∨ pk.1 = .str then
      let kr := parser_bump pk.2
      let keyTok := kr.1
      let ak := peekTy kr.2
      if ak.1 = .colon then
        let br := parser_bump ak.2
        match parse_node fuel br.2 with
        | none => none
        | some (none, p2) => some (none, p2)
        | some (some firstNode, p2) =>
          if p2.err.isSome then some (none, p2)
          else
            match parse_implicit fuel
                (xcdn_object_set .nil keyTok.payload firstNode) p2 with
            | none => none
            | some (none, p3) => some (none, p3)
            | some (some entries, p3) =>
              some (some [Node.mk .nil [] (.vobj entries)], p3)
      else
        match keyTok with
        | .str s => parse_stream fuel [Node.mk .nil [] (.vstr s)] ak.2
        | _ => some (none, { ak.2 with err := some .expected })
    else if pk.1 = .eof then some (some [], pk.2)
    else
      match parse_node fuel pk.2 with
      | none => none
      | some (none, p2) => some (none, p2)
      | some (some first, p2) => parse_stream fuel [first] p2

/-- Mirror of `parse_document`: prolog, then the document body.  The C
function pushes directives and values into the document as it goes; the
embedding assembles the same document at the end. -/
def parse_document : Nat → PState → Option (Option Doc × PState)
  | 0, _ => none
  | fuel + 1, p =>
    match parse_prolog fuel [] p with
    | none => none
    | some (none, p2) => some (none, p2)
    | some (some dirs, p2) =>
      match parse_doc_body fuel p2 with
      | none => none
      | some (none, p3) => some (none, p3)
      | some (some vs, p3) => some (some ⟨dirs, vs⟩, p3)

/-- Fuel supplied to the parser: generous linear bound on the call depth,
which grows by a bounded amount per input byte. -/
def parse_fuel (s : List Char) : Nat := 8 * s.length + 64

/-- Mirror of `xcdn_parse_str` / `xcdn_parse`: run the parser from a fresh
state; if the error slot is set afterwards the document is released and
only the error is returned.  The result is `none` on fuel exhaustion
(which does not occur for `parse_fuel`), otherwise
`some (document?, error?)`. -/
def xcdn_parse (s : List Char) : Option (Option Doc × Option ErrKind) :=
  match parse_document (parse_fuel s) ⟨s, none, none⟩ with
  | none => none
  | some (od, p) =>
    match od with
    | some d => if p.err.isSome then some (none, p.err) else some (some d, none)
    | none => some (none, p.err)

/-- Successful parse: a document with a clear error slot. -/
def parseOk (s : List Char) : Option Doc :=
  match xcdn_parse s with
  | some (some d, none) => some d
  | _ => none

/-! ## Document equivalence (spec §4.4)

Defined from the specification's words: same prolog (ordered, name-equal,
value-equal), same value stream (ordered, structurally equal), decorations
preserved in order and content, scalar values equal, Bytes compared
byte-exact after re-decoding.  Float values are compared by their stored
lexeme (IEEE-754 value equality is outside the embedding; no claim about
equivalence is settled on a float payload). -/

mutual
/-- Structural value equality of spec §4.4. -/
def veq : Value → Value → Bool
  | .vnull, b => (b matches .vnull)
  | .vbool a, b => (match b with | .vbool b2 => a == b2 | _ => false)
  | .vint a, b => (match b with | .vint b2 => a == b2 | _ => false)
  | .vfloat a, b => (match b with | .vfloat b2 => a == b2 | _ => false)
  | .vdec a, b => (match b with | .vdec b2 => a == b2 | _ => false)
  | .vstr a, b => (match b with | .vstr b2 => a == b2 | _ => false)
  | .vbytes a, b => (match b with | .vbytes b2 => a == b2 | _ => false)
  | .vdt a, b => (match b with | .vdt b2 => a == b2 | _ => false)
  | .vdur a, b => (match b with | .vdur b2 => a == b2 | _ => false)
  | .vuuid a, b => (match b with | .vuuid b2 => a == b2 | _ => false)
  | .varr a, b => (match b with | .varr b2 => nodesEq a b2 | _ => false)
  | .vobj a, b => (match b with | .vobj b2 => entriesEq a b2 | _ => false)
termination_by structural a _ => a

/-- Node equality: decorations in order and content, values equal. -/
def nodeEq : Node → Node → Bool
  | .mk a1 t1 v1, b =>
    (match b with
     | .mk a2 t2 v2 => annsEq a1 a2 && t1 == t2 && veq v1 v2)
termination_by structural a _ => a

/-- Pointwise equality of array elements. -/
def nodesEq : Nodes → Nodes → Bool
  | .nil, b => (b matches .nil)
  | .cons h1 t1, b =>
    (match b with
     | .cons h2 t2 => nodeEq h1 h2 && nodesEq t1 t2
     | _ => false)
termination_by structural a _ => a

/-- Pointwise equality of object entries (keys and nodes, in order). -/
def entriesEq : Entries → Entries → Bool
  | .nil, b => (b matches .nil)
  | .cons k1 n1 t1, b =>
    (match b with
     | .cons k2 n2 t2 => k1 == k2 && nodeEq n1 n2 && entriesEq t1 t2
     | _ => false)
termination_by structural a _ => a

/-- Pointwise equality of annotations (names and argument lists, in
order). -/
def annsEq : Anns → Anns → Bool
  | .nil, b => (b matches .nil)
  | .cons n1 a1 t1, b =>
    (match b with
     | .cons n2 a2 t2 => n1 == n2 && valsEq a1 a2 && annsEq t1 t2
     | _ => false)
termination_by structural a _ => a

/-- Pointwise equality of annotation arguments. -/
def valsEq : Values → Values → Bool
  | .nil, b => (b matches .nil)
  | .cons h1 t1, b =>
    (match b with
     | .cons h2 t2 => veq h1 h2 && valsEq t1 t2
     | _ => false)
termination_by structural a _ => a
end

/-- Pointwise equality of prolog directives (ordered, name-equal,
value-equal). -/
def dirsEq : List (List Char × Value) → List (List Char × Value) → Bool
  | [], [] => true
  | (n1, v1) :: t1, (n2, v2) :: t2 => n1 == n2 && veq v1 v2 && dirsEq t1 t2
  | _, _ => false

/-- Pointwise equality of the top-level value stream. -/
def nodesListEq : List Node → List Node → Bool
  | [], [] => true
  | h1 :: t1, h2 :: t2 => nodeEq h1 h2 && nodesListEq t1 t2
  | _, _ => false

/-- Document equivalence of spec §4.4. -/
def docEquiv (d1 d2 : Doc) : Bool :=
  dirsEq d1.prolog d2.prolog && nodesListEq d1.values d2.values

/-! ## Claim C1: pretty round-trip

The contract `parse(serialize_pretty(parse(T))) ≡ parse(T)` fails on the
three-byte input `"` LF `"`: the lexer accepts the raw newline inside an
ordinary string (pushing the byte through verbatim), the serializer
re-emits it as the escape `\n`, and re-parsing keeps that escape as the
two literal bytes `\` `n` (escapes are not decoded), so the re-parsed
scalar differs from the original. -/

/-- C1: at input `"\n"` (a quoted raw line feed), the pretty round trip
produces a document whose single string value is `\` `n` instead of the
original LF byte, so the two documents are not §4.4-equivalent. -/
theorem roundtrip_pretty_raw_ctrl_bug :
    parseOk ['"', '\n', '"'] = some ⟨[], [Node.mk .nil [] (.vstr ['\n'])]⟩ ∧
    xcdn_to_string_pretty ⟨[], [Node.mk .nil [] (.vstr ['\n'])]⟩ =
      ['"', '\\', 'n', '"'] ∧
    parseOk ['"', '\\', 'n', '"'] =
      some ⟨[], [Node.mk .nil [] (.vstr ['\\', 'n'])]⟩ ∧
    docEquiv ⟨[], [Node.mk .nil [] (.vstr ['\n'])]⟩
      ⟨[], [Node.mk .nil [] (.vstr ['\\', 'n'])]⟩ = false :=
  ⟨rfl, rfl, rfl, rfl⟩

/-! ## Claim C2: compact round-trip

The compact contract fails on `{"null": 1}`: the quoted key `null` is
stored as the plain text `null`, `is_simple_ident` does not exclude the
keywords, so the compact serializer emits the key bare; on re-parse the
lexer turns it into the NULL keyword token and `parse_key` rejects it, so
the round trip does not even re-parse. -/

/-- C2: at input `{"null": 1}`, compact serialization emits `{null: 1}`,
whose re-parse fails (`parse_key` meets the NULL keyword), contradicting
the claim that the re-parse succeeds with an equivalent document. -/
theorem roundtrip_compact_keyword_key_bug :
    parseOk "\x7b\"null\": 1\x7d".toList =
      some ⟨[], [Node.mk .nil []
        (.vobj (.cons "null".toList (Node.mk .nil [] (.vint 1)) .nil))]⟩ ∧
    xcdn_to_string_compact ⟨[], [Node.mk .nil []
        (.vobj (.cons "null".toList (Node.mk .nil [] (.vint 1)) .nil))]⟩ =
      "\x7bnull: 1\x7d".toList ∧
    parseOk "\x7bnull: 1\x7d".toList = none :=
  ⟨rfl, rfl, rfl⟩


/-! ## Claim C10: xcdn_get_path on an empty or dots-only path

`strtok_r` never produces empty tokens, so a path of only `.` separators
(including the empty path) yields no segments and the walk returns the
first top-level node unchanged, whatever its value type. -/
/-- A string of only dots tokenizes to no segments. -/
theorem dots_strtok_nil (fuel : Nat) (s : List Char) (h : ∀ c ∈ s, c = '.') :
    strtok_go fuel s = [] := by
  cases fuel with
  | zero => rfl
  | succ f =>
    have hd : s.dropWhile (fun c => c = '.') = [] := by
      rw [List.dropWhile_eq_nil_iff]
      intro c hc
      simp [h c hc]
    simp [strtok_go, hd]

/-- Members of a `takeWhile` prefix are members of the list. -/
theorem mem_takeWhile_mem {c : Char} {p : Char → Bool} {l : List Char}
    (h : c ∈ l.takeWhile p) : c ∈ l := by
  induction l with
  | nil => simp [List.takeWhile] at h
  | cons a t ih =>
    simp only [List.takeWhile] at h
    by_cases hp : p a
    · rw [hp] at h
      rcases List.mem_cons.mp h with h1 | h2
      · exact h1 ▸ List.mem_cons_self a t
      · exact List.mem_cons_of_mem a (ih h2)
    · rw [Bool.eq_false_iff.mpr hp] at h
      simp at h

/-- C10: on a non-empty document, `xcdn_get_path` with an empty path or a
path consisting only of `.` separators returns the first top-level node
itself, with no requirement that its value be an Object. -/
theorem get_path_empty_or_dots (doc : Doc) (n : Node) (path : List Char)
    (hn : doc.values.head? = some n)
    (hp : ∀ c ∈ path, c = '.') :
    xcdn_get_path doc path = some n := by
  unfold xcdn_get_path
  cases hv : doc.values with
  | nil => rw [hv] at hn; simp at hn
  | cons first tail =>
    rw [hv] at hn
    simp only [List.head?] at hn
    have : first = n := by injection hn
    subst this
    have hall : ∀ c ∈ cstr path, c = '.' := by
      intro c hc
      exact hp c (mem_takeWhile_mem hc)
    rw [show strtok_dots (cstr path) = [] from dots_strtok_nil _ _ hall]
    rfl

/-- C10 witness: a dots-only path on a document whose first node is the
non-Object value `42`. -/
theorem get_path_empty_or_dots_witness :
    xcdn_get_path ⟨[], [Node.mk .nil [] (.vint 42)]⟩ ['.', '.'] =
      some (Node.mk .nil [] (.vint 42)) :=
  get_path_empty_or_dots _ _ _ rfl (by decide)


/-! ## Claim C5: UUID literals

`validate_uuid` is shown equivalent to the claim's characterization
(length 36, dashes at 8/13/18/23, hex elsewhere, no version check), and
`parse_value` on a `u"…"` token succeeds storing the text verbatim
exactly when it holds, failing with `INVALID_UUID` otherwise.  The body is
assumed NUL-free: the token payload is handed to C-string functions
(`strlen`, `strdup`), so a body with an interior NUL is not representable
as "the text s" of the claim. -/
/-- On a NUL-free byte list the C-string view is the whole list. -/
theorem cstr_of_noNul {s : List Char} (h : nulc ∉ s) : cstr s = s := by
  induction s with
  | nil => rfl
  | cons c t ih =>
    have hc : c ≠ nulc := fun e => h (by simp [e])
    have ht : nulc ∉ t := fun m => h (by simp [m])
    show List.takeWhile _ (c :: t) = c :: t
    rw [List.takeWhile_cons, if_pos (by simpa using hc)]
    exact congrArg (c :: ·) (ih ht)

/-- UUID well-formedness as stated by the claim (spec §6): length 36,
`-` at positions 8, 13, 18, 23, hex digits everywhere else; no
version/variant check. -/
def uuidSpec (s : List Char) : Prop :=
  s.length = 36 ∧
  s.getD 8 ' ' = '-' ∧ s.getD 13 ' ' = '-' ∧
  s.getD 18 ' ' = '-' ∧ s.getD 23 ' ' = '-' ∧
  ∀ i < 36, i ≠ 8 → i ≠ 13 → i ≠ 18 → i ≠ 23 →
    isxdigit (s.getD i ' ') = true

set_option synthInstance.maxSize 1024 in
instance uuidSpecDec (s : List Char) : Decidable (uuidSpec s) := by
  unfold uuidSpec
  infer_instance

/-- The code's `validate_uuid` decides exactly the claim's UUID shape. -/
theorem validate_uuid_iff (s : List Char) (h : nulc ∉ s) :
    validate_uuid s = true ↔ uuidSpec s := by
  have hs : cstr s = s := cstr_of_noNul h
  unfold validate_uuid
  rw [hs]
  constructor
  · intro hv
    by_cases hlen : s.length = 36
    case neg => rw [if_pos (by omega)] at hv; exact absurd hv (by simp)
    rw [if_neg (by omega)] at hv
    by_cases hdash :
        ([8, 13, 18, 23].all (fun i => s.getD i ' ' = '-')) = true
    case neg =>
      rw [if_pos (by simpa using hdash)] at hv
      exact absurd hv (by simp)
    rw [if_neg (by simpa using hdash)] at hv
    rw [List.all_eq_true] at hv
    simp only [List.all_cons, List.all_nil, Bool.and_eq_true, and_true,
      decide_eq_true_eq] at hdash
    refine ⟨hlen, hdash.1, hdash.2.1, hdash.2.2.1, hdash.2.2.2, ?_⟩
    intro i hi h8 h13 h18 h23
    have hm := hv i (by rw [List.mem_range, hlen]; exact hi)
    rw [Bool.or_eq_true, decide_eq_true_eq] at hm
    rcases hm with hor | hx
    · tauto
    · exact hx
  · rintro ⟨hlen, h8, h13, h18, h23, hhex⟩
    have hdash : ([8, 13, 18, 23].all (fun i => s.getD i ' ' = '-')) = true := by
      simp only [List.all_cons, List.all_nil, Bool.and_eq_true, and_true,
        decide_eq_true_eq]
      exact ⟨h8, h13, h18, h23⟩
    rw [if_neg (by omega), if_neg (not_not_intro hdash), List.all_eq_true]
    intro i hmem
    rw [List.mem_range, hlen] at hmem
    rw [Bool.or_eq_true, decide_eq_true_eq]
    by_cases h8' : i = 8
    · tauto
    by_cases h13' : i = 13
    · tauto
    by_cases h18' : i = 18
    · tauto
    by_cases h23' : i = 23
    · tauto
    · exact Or.inr (hhex i hmem h8' h13' h18' h23')

/-- C5: parsing a `u"s"` typed literal (the lookahead holds the `U_QUOTED`
token) succeeds and stores `s` verbatim as a UUID value iff `s` has length
36 with `-` at positions 8, 13, 18, 23 and hex digits elsewhere; otherwise
it fails with error kind `INVALID_UUID`. -/
theorem uuid_literal_validate (fuel : Nat) (rest s : List Char)
    (hnul : nulc ∉ s) :
    (uuidSpec s →
      parse_value (fuel + 1) ⟨rest, some (.uQ s), none⟩ =
        some (some (.vuuid s), ⟨rest, none, none⟩)) ∧
    (¬ uuidSpec s →
      parse_value (fuel + 1) ⟨rest, some (.uQ s), none⟩ =
        some (none, ⟨rest, none, some .invalidUUID⟩)) := by
  constructor
  · intro hs
    have hv : validate_uuid s = true := (validate_uuid_iff s hnul).mpr hs
    simp [parse_value, parser_bump, hv, cstr_of_noNul hnul]
  · intro hs
    have hv : validate_uuid s = false := by
      rcases Bool.eq_false_or_eq_true (validate_uuid s) with hb | hb
      · exact absurd ((validate_uuid_iff s hnul).mp hb) hs
      · exact hb
    simp [parse_value, parser_bump, hv]

/-- C5 witness: one well-formed UUID accepted verbatim, one malformed
body rejected with `INVALID_UUID`. -/
theorem uuid_literal_validate_witness :
    parse_value 1
        ⟨[], some (.uQ "550e8400-e29b-41d4-a716-446655440000".toList), none⟩ =
      some (some (.vuuid "550e8400-e29b-41d4-a716-446655440000".toList),
        ⟨[], none, none⟩) ∧
    parse_value 1 ⟨[], some (.uQ "550e8400".toList), none⟩ =
      some (none, ⟨[], none, some .invalidUUID⟩) :=
  ⟨(uuid_literal_validate 0 [] _ (by decide)).1 (by decide),
   (uuid_literal_validate 0 [] _ (by decide)).2 (by decide)⟩


/-! ## Claim C6: base64 bytes literals

The code's `decode_base64` is proved equal to a claim-side decoder
built from the claim's words, and `parse_value` on a `b\"…\"` token is
shown to succeed or fail with `INVALID_BASE64` accordingly. -/

/-- Claim-side base64 alphabet: the standard alphabet `A-Za-z0-9+/` plus
the URL-safe variants `-` as 62 and `_` as 63; `none` for any other
character. -/
def sextet (c : Char) : Option Nat :=
  if decide ('A' ≤ c ∧ c ≤ 'Z') then some (c.toNat - 65)
  else if decide ('a' ≤ c ∧ c ≤ 'z') then some (c.toNat - 97 + 26)
  else if is_digit c then some (c.toNat - 48 + 52)
  else if c = '+' ∨ c = '-' then some 62
  else if c = '/' ∨ c = '_' then some 63
  else none

/-- Big-endian bits of the low `w` bits of a number. -/
def natBits : Nat → Nat → List Bool
  | 0, _ => []
  | w + 1, n => decide (n / 2 ^ w % 2 = 1) :: natBits w n

/-- Value of a big-endian bit string. -/
def bitsVal : List Bool → Nat
  | [] => 0
  | b :: t => (if b then 1 else 0) * 2 ^ t.length + bitsVal t

/-- Claim-side regrouping of a bit stream into bytes; a trailing group of
fewer than eight bits is dropped. -/
def bytesOfBits : List Bool → List Nat
  | b1 :: b2 :: b3 :: b4 :: b5 :: b6 :: b7 :: b8 :: t =>
    bitsVal [b1, b2, b3, b4, b5, b6, b7, b8] :: bytesOfBits t
  | _ => []

/-- Map every character through the alphabet, failing on the first
character outside it. -/
def mapSextet : List Char → Option (List Nat)
  | [] => some []
  | c :: t =>
    match sextet c, mapSextet t with
    | some v, some vs => some (v :: vs)
    | _, _ => none

/-- Claim-side base64 decoder: drop `=` padding (wherever it occurs) and
the whitespace bytes space, LF, CR; map every remaining character through
the alphabet; concatenate the 6-bit groups and take the complete bytes;
any character outside the alphabet fails. -/
def b64DecodeSpec (s : List Char) : Option (List Nat) :=
  match mapSextet (s.filter (fun c => !(b64_skip c))) with
  | some vs => some (bytesOfBits (vs.map (natBits 6)).flatten)
  | none => none

theorem bitsVal_append (a b : List Bool) :
    bitsVal (a ++ b) = bitsVal a * 2 ^ b.length + bitsVal b := by
  induction a with
  | nil => simp [bitsVal]
  | cons x t ih =>
    simp only [List.cons_append, bitsVal, List.length_append, ih,
      List.append_eq]
    rw [pow_add]
    ring

theorem bitsVal_lt (l : List Bool) : bitsVal l < 2 ^ l.length := by
  induction l with
  | nil => simp [bitsVal]
  | cons x t ih =>
    simp only [bitsVal, List.length_cons, pow_succ]
    cases x <;> simp <;> omega

theorem natBits_length (w n : Nat) : (natBits w n).length = w := by
  induction w generalizing n with
  | zero => rfl
  | succ w ih => simp [natBits, ih]

theorem bitsVal_natBits (w n : Nat) : bitsVal (natBits w n) = n % 2 ^ w := by
  induction w generalizing n with
  | zero => simp [natBits, bitsVal, Nat.mod_one]
  | succ w ih =>
    simp only [natBits, bitsVal, ih, natBits_length]
    have h2 : n % (2 ^ w * 2) = n % 2 ^ w + 2 ^ w * (n / 2 ^ w % 2) :=
      Nat.mod_mul
    rw [pow_succ]
    rcases Nat.mod_two_eq_zero_or_one (n / 2 ^ w) with h | h <;>
      simp [h] at h2 ⊢ <;> omega

/-- Outside the skip set, a character rejected by the claim's alphabet is
rejected by the code's `is_b64_char` as well. -/
theorem sextet_none (c : Char) (hskip : b64_skip c = false)
    (h : sextet c = none) : is_b64_char c = false := by
  unfold sextet at h
  split_ifs at h with h1 h2 h3 h4 h5
  have hne : ¬(c = '=' ∨ c = ' ' ∨ c = '\n' ∨ c = '\r') :=
    of_decide_eq_false hskip
  unfold is_b64_char isalnum is_digit
  simp only [Bool.or_eq_false_iff, decide_eq_false_iff_not]
  refine ⟨⟨?_, ?_⟩, ?_⟩
  · exact fun hd => h3 (by simpa [is_digit] using decide_eq_true hd)
  · rintro (hl | hl)
    · exact h2 (decide_eq_true hl)
    · exact h1 (decide_eq_true hl)
  · rintro (hh | hh | hh | hh | hh)
    · exact h4 (Or.inl hh)
    · exact h5 (Or.inl hh)
    · exact h4 (Or.inr hh)
    · exact h5 (Or.inr hh)
    · exact hne (Or.inl hh)

/-- The alphabet map fails exactly when some element is outside the
alphabet. -/
theorem mapSextet_none (t : List Char) :
    mapSextet t = none ↔ ∃ c ∈ t, sextet c = none := by
  induction t with
  | nil => simp [mapSextet]
  | cons c r ih =>
    rcases hc : sextet c with _ | v <;>
      rcases hr : mapSextet r with _ | vs <;>
        simp [mapSextet, hc, hr, ← ih]



theorem bitsVal_take_drop (k : Nat) (l : List Bool) :
    bitsVal l = bitsVal (l.take k) * 2 ^ (l.drop k).length + bitsVal (l.drop k) := by
  conv_lhs => rw [← List.take_append_drop k l]
  exact bitsVal_append _ _

theorem bytesOfBits_short (l : List Bool) (h : l.length < 8) :
    bytesOfBits l = [] := by
  rcases l with _ | ⟨b1, _ | ⟨b2, _ | ⟨b3, _ | ⟨b4, _ | ⟨b5, _ | ⟨b6, _ | ⟨b7, _ | ⟨b8, t⟩⟩⟩⟩⟩⟩⟩⟩ <;>
    first
      | rfl
      | (simp only [List.length_cons] at h; omega)

theorem bytesOfBits_split (l m : List Bool) (h : 8 ≤ l.length) :
    bytesOfBits (l ++ m) =
      bitsVal (l.take 8) :: bytesOfBits (l.drop 8 ++ m) := by
  rcases l with _ | ⟨b1, _ | ⟨b2, _ | ⟨b3, _ | ⟨b4, _ | ⟨b5, _ | ⟨b6, _ | ⟨b7, _ | ⟨b8, t⟩⟩⟩⟩⟩⟩⟩⟩ <;>
    first
      | (simp only [List.length_cons, List.length_nil] at h; omega)
      | rfl

/-- A character in the claim's alphabet is accepted by `is_b64_char` and
looked up as its claimed value (a 6-bit value) by the code's table. -/
theorem sextet_some (c : Char) (v : Nat) (h : sextet c = some v) :
    is_b64_char c = true ∧ b64_table c = v ∧ v < 64 := by
  unfold sextet at h
  split_ifs at h with h1 h2 h3 h4 h5 <;>
    simp only [Option.some.injEq] at h <;> subst h
  · have hz : decide (('a' ≤ c ∧ c ≤ 'z') ∨ ('A' ≤ c ∧ c ≤ 'Z')) = true :=
      decide_eq_true (Or.inr (of_decide_eq_true h1))
    have hl : 65 ≤ c.toNat := (of_decide_eq_true h1).1
    have hr : c.toNat ≤ 90 := (of_decide_eq_true h1).2
    refine ⟨by simp [is_b64_char, isalnum, hz], ?_, by omega⟩
    rw [b64_table, if_pos h1]
  · have hz : decide (('a' ≤ c ∧ c ≤ 'z') ∨ ('A' ≤ c ∧ c ≤ 'Z')) = true :=
      decide_eq_true (Or.inl (of_decide_eq_true h2))
    have hl : 97 ≤ c.toNat := (of_decide_eq_true h2).1
    have hr : c.toNat ≤ 122 := (of_decide_eq_true h2).2
    refine ⟨by simp [is_b64_char, isalnum, hz], ?_, by omega⟩
    rw [b64_table, if_neg h1, if_pos h2]
  · have h3p : '0' ≤ c ∧ c ≤ '9' := of_decide_eq_true (by simpa [is_digit] using h3)
    have hl : 48 ≤ c.toNat := h3p.1
    have hr : c.toNat ≤ 57 := h3p.2
    refine ⟨?_, ?_, by omega⟩
    · simp only [is_b64_char, isalnum, is_digit]
      simp [h3p.1, h3p.2]
    · rw [b64_table, if_neg h1, if_neg h2, if_pos h3]
  · rcases h4 with hc | hc <;> subst hc <;>
      exact ⟨by decide, by decide, by decide⟩
  · rcases h5 with hc | hc <;> subst hc <;>
      exact ⟨by decide, by decide, by decide⟩


/-- A non-skipped character outside `is_b64_char` is outside the claim's
alphabet. -/
theorem sextet_invalid (c : Char) (hv : is_b64_char c = false) :
    sextet c = none := by
  rcases hs : sextet c with _ | v
  · rfl
  · exact absurd (sextet_some c v hs).1 (by simp [hv])

/-- A non-skipped character accepted by `is_b64_char` is in the claim's
alphabet, with the code's table value. -/
theorem sextet_valid (c : Char) (hskip : b64_skip c = false)
    (hv : is_b64_char c = true) :
    sextet c = some (b64_table c) ∧ b64_table c < 64 := by
  rcases hs : sextet c with _ | v
  · exact absurd (sextet_none c hskip hs) (by simp [hv])
  · have h := sextet_some c v hs
    exact ⟨by rw [h.2.1], h.2.1 ▸ h.2.2⟩

theorem bitsVal_natBits6 (v : Nat) (hv : v < 64) :
    bitsVal (natBits 6 v) = v := by
  rw [bitsVal_natBits]
  exact Nat.mod_eq_of_lt (by norm_num; omega)

theorem mod_mul64 (a v m : Nat) (hm : 0 < m) (hv : v < 64) :
    (a * 64 + v) % (m * 64) = a % m * 64 + v := by
  have h0 := Nat.div_add_mod a m
  have key : a * 64 + v = (a % m * 64 + v) + a / m * (m * 64) := by
    calc a * 64 + v = (m * (a / m) + a % m) * 64 + v := by rw [h0]
      _ = (a % m * 64 + v) + a / m * (m * 64) := by ring
  rw [key, Nat.add_mul_mod_self_right, Nat.mod_eq_of_lt]
  have := Nat.mod_lt a hm
  omega

/-- One accumulation step: the low `bits + 6` bits of the updated
accumulator are the old pending bits followed by the new sextet. -/
theorem accum_step (acc v bits : Nat) (hb : bits < 8) (hv : v < 64) :
    (acc * 64 + v) % 4294967296 % 2 ^ (bits + 6) = acc % 2 ^ bits * 64 + v := by
  have hdvd : (2 : Nat) ^ (bits + 6) ∣ 4294967296 := by
    have h32 : (4294967296 : Nat) = 2 ^ 32 := by norm_num
    rw [h32]
    exact pow_dvd_pow 2 (by omega)
  rw [Nat.mod_mod_of_dvd _ hdvd]
  have h2 : (2 : Nat) ^ (bits + 6) = 2 ^ bits * 64 := by
    rw [pow_add]
    norm_num
  rw [h2, mod_mul64 _ _ _ (Nat.pos_pow_of_pos _ (by norm_num)) hv]

/-- Emitting one byte: if the low `L` bits of the accumulator spell the
pending bit string, the emitted byte is its top eight bits and the
residual accumulator bits spell the rest. -/
theorem emit_byte (A2 L : Nat) (p : List Bool) (hL : p.length = L)
    (h8 : 8 ≤ L) (hA : A2 % 2 ^ L = bitsVal p) :
    A2 / 2 ^ (L - 8) % 256 = bitsVal (p.take 8) ∧
    A2 % 2 ^ (L - 8) = bitsVal (p.drop 8) := by
  have hdl : (p.drop 8).length = L - 8 := by simp [hL]
  have hsplit := bitsVal_take_drop 8 p
  have hRlt : bitsVal (p.drop 8) < 2 ^ (L - 8) := hdl ▸ bitsVal_lt _
  have hpow : (2 : Nat) ^ (L - 8) * 256 = 2 ^ L := by
    have h256 : (256 : Nat) = 2 ^ 8 := by norm_num
    rw [h256, ← pow_add]
    congr 1
    omega
  constructor
  · rw [Nat.div_mod_eq_mod_mul_div, hpow, hA, hsplit, hdl]
    rw [Nat.mul_comm (bitsVal (p.take 8)) (2 ^ (L - 8)),
      Nat.mul_add_div (Nat.pos_pow_of_pos _ (by norm_num)),
      Nat.div_eq_of_lt hRlt]
    omega
  · have hdvd : (2 : Nat) ^ (L - 8) ∣ 2 ^ L := pow_dvd_pow 2 (by omega)
    rw [← Nat.mod_mod_of_dvd A2 hdvd, hA, hsplit, hdl,
      Nat.mul_comm (bitsVal (p.take 8)) (2 ^ (L - 8)), Nat.mul_add_mod,
      Nat.mod_eq_of_lt hRlt]
/-- The decode loop of `decode_base64`, started with `pending` bits in
the accumulator, computes the remaining characters' sextets, appends
their bits, and regroups into bytes after the already-emitted ones. -/
theorem b64_loop_spec (t : List Char) :
    ∀ (pending : List Bool) (acc : Nat) (out : List Nat),
    pending.length < 8 → acc % 2 ^ pending.length = bitsVal pending →
    b64_loop t acc pending.length out =
      (mapSextet (t.filter (fun c => !(b64_skip c)))).map
        (fun vs => out.reverse ++
          bytesOfBits (pending ++ (vs.map (natBits 6)).flatten)) := by
  induction t with
  | nil =>
    intro pending acc out hlen hacc
    simp [b64_loop, mapSextet, bytesOfBits_short _ hlen]
  | cons c rest ih =>
    intro pending acc out hlen hacc
    by_cases hskip : b64_skip c
    · rw [show b64_loop (c :: rest) acc pending.length out =
          b64_loop rest acc pending.length out from by
        simp [b64_loop, hskip]]
      rw [List.filter_cons_of_neg (by simp [hskip])]
      exact ih pending acc out hlen hacc
    · rw [List.filter_cons_of_pos (by simp [hskip])]
      by_cases hvalid : is_b64_char c
      · have hv := sextet_valid c (by simp [hskip]) hvalid
        have hlt := hv.2
        have hstep : b64_loop (c :: rest) acc pending.length out =
            (if 8 ≤ pending.length + 6 then
              b64_loop rest ((acc * 64 + b64_table c) % 4294967296)
                (pending.length + 6 - 8)
                (((acc * 64 + b64_table c) % 4294967296 /
                    2 ^ (pending.length + 6 - 8)) % 256 :: out)
            else
              b64_loop rest ((acc * 64 + b64_table c) % 4294967296)
                (pending.length + 6) out) := by
          simp [b64_loop, hskip, hvalid]
        have hA2 : ((acc * 64 + b64_table c) % 4294967296) %
            2 ^ (pending ++ natBits 6 (b64_table c)).length =
            bitsVal (pending ++ natBits 6 (b64_table c)) := by
          rw [List.length_append, natBits_length,
            accum_step acc (b64_table c) pending.length hlen hlt,
            bitsVal_append, natBits_length, bitsVal_natBits6 _ hlt, hacc]
          norm_num
        have hlen2 : (pending ++ natBits 6 (b64_table c)).length =
            pending.length + 6 := by
          rw [List.length_append, natBits_length]
        rw [hstep]
        by_cases h8 : 8 ≤ pending.length + 6
        · have hbyte := emit_byte ((acc * 64 + b64_table c) % 4294967296)
            (pending.length + 6) (pending ++ natBits 6 (b64_table c))
            hlen2 h8 (by rw [hlen2] at hA2; exact hA2)
          rw [if_pos h8, hbyte.1]
          have hdl : ((pending ++ natBits 6 (b64_table c)).drop 8).length =
              pending.length + 6 - 8 := by
            rw [List.length_drop, hlen2]
          rw [show pending.length + 6 - 8 =
              ((pending ++ natBits 6 (b64_table c)).drop 8).length from
            hdl.symm]
          rw [ih ((pending ++ natBits 6 (b64_table c)).drop 8)
            ((acc * 64 + b64_table c) % 4294967296)
            (bitsVal ((pending ++ natBits 6 (b64_table c)).take 8) :: out)
            (by rw [hdl]; omega) (by rw [hdl]; exact hbyte.2)]
          rcases hm : mapSextet (rest.filter (fun c => !(b64_skip c)))
            with _ | vs
          · simp [mapSextet, hv.1, hm]
          · simp only [mapSextet, hv.1, hm, Option.map_some']
            congr 1
            rw [List.map_cons, List.flatten_cons, List.reverse_cons,
              ← List.append_assoc,
              bytesOfBits_split (pending ++ natBits 6 (b64_table c)) _
                (by rw [hlen2]; omega)]
            simp
        · rw [if_neg h8]
          rw [show pending.length + 6 =
              (pending ++ natBits 6 (b64_table c)).length from hlen2.symm]
          rw [ih (pending ++ natBits 6 (b64_table c))
            ((acc * 64 + b64_table c) % 4294967296) out
            (by rw [hlen2]; omega) hA2]
          rcases hm : mapSextet (rest.filter (fun c => !(b64_skip c)))
            with _ | vs
          · simp [mapSextet, hv.1, hm]
          · simp only [mapSextet, hv.1, hm, Option.map_some']
            congr 1
            rw [List.map_cons, List.flatten_cons, ← List.append_assoc]
      · have hsx : sextet c = none :=
          sextet_invalid c (by simpa using hvalid)
        have hloop : b64_loop (c :: rest) acc pending.length out = none := by
          simp [b64_loop, hskip, hvalid]
        rw [hloop]
        simp [mapSextet, hsx]
/-- Dropping a leading run of `=` does not change the survivors of the
skip filter: `=` is skipped anyway. -/
theorem filter_dropWhileEq (r : List Char) :
    (r.dropWhile (fun c => c = '=')).filter (fun c => !(b64_skip c)) =
      r.filter (fun c => !(b64_skip c)) := by
  induction r with
  | nil => rfl
  | cons a t ih =>
    by_cases ha : a = '='
    · subst ha
      rw [List.dropWhile_cons, if_pos (by decide), ih,
        List.filter_cons_of_neg (by decide)]
    · simp [List.dropWhile_cons, ha]

/-- Stripping trailing `=` padding does not change the characters that
survive the skip filter. -/
theorem filter_stripEq (s : List Char) :
    ((s.reverse.dropWhile (fun c => c = '=')).reverse).filter
        (fun c => !(b64_skip c)) =
      s.filter (fun c => !(b64_skip c)) := by
  rw [List.filter_reverse, filter_dropWhileEq, List.filter_reverse,
    List.reverse_reverse]

/-- The code's `decode_base64` computes exactly the claim's decoder. -/
theorem decode_base64_eq (s : List Char) :
    decode_base64 s = b64DecodeSpec s := by
  unfold decode_base64 b64DecodeSpec
  have h := b64_loop_spec ((s.reverse.dropWhile (fun c => c = '=')).reverse)
    [] 0 [] (by simp) (by simp [bitsVal])
  simp only [List.length_nil] at h
  rw [h, filter_stripEq]
  rcases hm : mapSextet (s.filter (fun c => !(b64_skip c))) with _ | vs <;>
    simp [hm]

/-- The claim's decoder fails exactly when some character of the body is
neither skippable nor in the alphabet. -/
theorem b64DecodeSpec_none_iff (s : List Char) :
    b64DecodeSpec s = none ↔
      ∃ c ∈ s, b64_skip c = false ∧ sextet c = none := by
  have hkey : b64DecodeSpec s = none ↔
      mapSextet (s.filter (fun c => !(b64_skip c))) = none := by
    unfold b64DecodeSpec
    rcases hm : mapSextet (s.filter (fun c => !(b64_skip c))) with _ | vs <;>
      simp [hm]
  rw [hkey, mapSextet_none]
  constructor
  · rintro ⟨c, hc, hsx⟩
    rw [List.mem_filter] at hc
    exact ⟨c, hc.1, by simpa using hc.2, hsx⟩
  · rintro ⟨c, hc, hskip, hsx⟩
    exact ⟨c, List.mem_filter.mpr ⟨hc, by simp [hskip]⟩, hsx⟩
/-- C6: parsing a `b"s"` typed literal (the lookahead holds the
`B_QUOTED` token) decodes the body exactly as the claim describes:
`decode_base64` equals the claim-side decoder (standard alphabet plus
`-` as 62 and `_` as 63, every `=` and the whitespace bytes space, LF,
CR skipped wherever they occur, missing padding tolerated, the 6-bit
groups concatenated and regrouped into complete bytes); a decodable body
yields a bytes value with those bytes, and a body holding any other
character fails with error kind `INVALID_BASE64`. -/
theorem base64_literal_decode (fuel : Nat) (rest s : List Char) :
    decode_base64 s = b64DecodeSpec s ∧
    (∀ bs, b64DecodeSpec s = some bs →
      parse_value (fuel + 1) ⟨rest, some (.bQ s), none⟩ =
        some (some (.vbytes bs), ⟨rest, none, none⟩)) ∧
    ((∃ c ∈ s, b64_skip c = false ∧ sextet c = none) →
      parse_value (fuel + 1) ⟨rest, some (.bQ s), none⟩ =
        some (none, ⟨rest, none, some .invalidBase64⟩)) := by
  refine ⟨decode_base64_eq s, ?_, ?_⟩
  · intro bs hbs
    have hd : decode_base64 s = some bs := by
      rw [decode_base64_eq]
      exact hbs
    simp [parse_value, parser_bump, hd]
  · intro hex
    have hn : b64DecodeSpec s = none := (b64DecodeSpec_none_iff s).mpr hex
    have hd : decode_base64 s = none := by
      rw [decode_base64_eq]
      exact hn
    simp [parse_value, parser_bump, hd]

/-- C6 witness: `b"aGVsbG8="` decodes to the bytes of `hello`; a body
with `(` fails with `INVALID_BASE64`. -/
theorem base64_literal_decode_witness :
    parse_value 1 ⟨[], some (.bQ "aGVsbG8=".toList), none⟩ =
      some (some (.vbytes [104, 101, 108, 108, 111]), ⟨[], none, none⟩) ∧
    parse_value 1 ⟨[], some (.bQ "a(".toList), none⟩ =
      some (none, ⟨[], none, some .invalidBase64⟩) :=
  ⟨(base64_literal_decode 0 [] _).2.1 [104, 101, 108, 108, 111] (by decide),
   (base64_literal_decode 0 [] _).2.2 ⟨'(', by decide, by decide, by decide⟩⟩


/-! ## Claim C7: implicit top-level objects

After the prolog, a two-token lookahead seeing IDENT/STRING then `:`
commits `parse_document` to the implicit-object branch, whose only
possible success is a single-node value stream holding an Object. -/


/-- C7: whenever the prolog loop of `parse_document` succeeds and the
two-token lookahead then sees IDENT or STRING followed by `:`, a
successful document parse necessarily carries the parsed directives and a
value stream holding exactly one node: an undecorated Object (no
enclosing braces were consumed), whose entries are produced by the
implicit-object entry loop (optional commas, until EOF) seeded with that
first key. -/
theorem implicit_object_detection (f : Nat) (p p1 : PState)
    (dirs : List (List Char × Value)) (doc : Doc) (p2 : PState)
    (hpro : parse_prolog (f + 1) [] p = some (some dirs, p1))
    (hident : (peekTy p1).1 = .ident ∨ (peekTy p1).1 = .str)
    (hcolon : (peekTy ((parser_bump ((peekTy p1).2)).2)).1 = .colon)
    (hdoc : parse_document (f + 1 + 1) p = some (some doc, p2)) :
    doc.prolog = dirs ∧
    ∃ entries, doc.values = [Node.mk .nil [] (.vobj entries)] := by
  simp only [parse_document, hpro] at hdoc
  rcases hb : parse_doc_body (f + 1) p1 with _ | ⟨ov, p3⟩
  · rw [hb] at hdoc
    cases hdoc
  · rw [hb] at hdoc
    rcases ov with _ | vs
    · simp at hdoc
    · simp only [Option.some.injEq, Prod.mk.injEq] at hdoc
      obtain ⟨hd, -⟩ := hdoc
      subst hd
      refine ⟨rfl, ?_⟩
      simp only [parse_doc_body] at hb
      rw [if_pos hident, if_pos hcolon] at hb
      split at hb
      · exact Option.noConfusion hb
      · simp at hb
      · split at hb
        · simp at hb
        · split at hb
          · exact Option.noConfusion hb
          · simp at hb
          · simp only [Option.some.injEq, Prod.mk.injEq] at hb
            obtain ⟨hvs, -⟩ := hb
            exact ⟨_, hvs.symm⟩
/-- C7 witness: the input `a: 1` (no prolog, IDENT then `:`) parses to a
document whose sole value is the implicit object. -/
theorem implicit_object_detection_witness :
    (Doc.mk [] [Node.mk .nil []
        (.vobj (.cons ['a'] (Node.mk .nil [] (.vint 1)) .nil))]).prolog =
      ([] : List (List Char × Value)) ∧
    ∃ entries, (Doc.mk [] [Node.mk .nil []
        (.vobj (.cons ['a'] (Node.mk .nil [] (.vint 1)) .nil))]).values =
      [Node.mk .nil [] (.vobj entries)] :=
  implicit_object_detection 30 ⟨"a: 1".toList, none, none⟩
    ⟨[':', ' ', '1'], some (.ident ['a']), none⟩ []
    (Doc.mk [] [Node.mk .nil []
      (.vobj (.cons ['a'] (Node.mk .nil [] (.vint 1)) .nil))])
    ⟨[], some .eof, none⟩
    rfl (Or.inl rfl) rfl rfl


/-! ## Claim C8: object key uniqueness

A Boolean invariant over the value tree requires well-formed keys in
every reachable Object; `xcdn_object_set` is shown to preserve it
(replace-in-place on an existing key, single append otherwise), and a
fuel induction over all parse functions shows every successfully parsed
document satisfies it. -/


/-- Does a stored key equal to `k` occur in the entries? -/
def keyIn : List Char → Entries → Bool
  | _, .nil => false
  | k, .cons k0 _ t => decide (k0 = k) || keyIn k t

/-- Key well-formedness of an object's own entry list: every stored key
is its own C-string (NUL-free prefix fixed point, as produced by the
`strdup` in `xcdn_object_set`) and occurs only once. -/
def keysOK : Entries → Bool
  | .nil => true
  | .cons k _ t => decide (cstr k = k) && !(keyIn k t) && keysOK t

/-- Does some stored key compare `strcmp`-equal to `k`
(the replace condition of `xcdn_object_set`)? -/
def hasKey : Entries → List Char → Bool
  | .nil, _ => false
  | .cons k0 _ t, k => decide (cstr k0 = cstr k) || hasKey t k

mutual
/-- The no-duplicate-keys invariant of every reachable Object, stated
over the whole value tree: each `vobj` has well-formed keys and the
invariant holds in every child node, array item, object entry and
annotation argument. -/
def valND : Value → Bool
  | .varr items => nodesND items
  | .vobj entries => keysOK entries && entriesND entries
  | _ => true

/-- `valND` through a node (annotation arguments included). -/
def nodeND : Node → Bool
  | .mk a _ v => annsND a && valND v

/-- `nodeND` over array items. -/
def nodesND : Nodes → Bool
  | .nil => true
  | .cons h t => nodeND h && nodesND t

/-- `nodeND` over object entries. -/
def entriesND : Entries → Bool
  | .nil => true
  | .cons _ n t => nodeND n && entriesND t

/-- `valND` over annotation argument vectors. -/
def annsND : Anns → Bool
  | .nil => true
  | .cons _ args t => valsND args && annsND t

/-- `valND` over value vectors. -/
def valsND : Values → Bool
  | .nil => true
  | .cons h t => valND h && valsND t

end

/-- `valND` over prolog directives. -/
def dirsND : List (List Char × Value) → Bool
  | [] => true
  | d :: t => valND d.2 && dirsND t

/-- `nodeND` over the value stream. -/
def streamND : List Node → Bool
  | [] => true
  | n :: t => nodeND n && streamND t

/-- The invariant over a whole document. -/
def docND (d : Doc) : Bool := dirsND d.prolog && streamND d.values
end XCDN

namespace XCDN
theorem cstr_idem (k : List Char) : cstr (cstr k) = cstr k := by
  unfold cstr
  exact List.takeWhile_idem
/-- `xcdn_object_set` never creates a key that was absent and different
from the (C-string of the) inserted key. -/
theorem keyIn_set_false (t : Entries) (x k : List Char) (n : Node)
    (hx : keyIn x t = false) (hk : x ≠ cstr k) :
    keyIn x (xcdn_object_set t k n) = false := by
  induction t using keysOK.induct with
  | case1 =>
    simp only [xcdn_object_set, keyIn, Bool.or_false,
      decide_eq_false_iff_not]
    exact fun h => hk h.symm
  | case2 k0 n0 t0 ih =>
    simp only [keyIn, Bool.or_eq_false_iff, decide_eq_false_iff_not] at hx
    by_cases hc : cstr k0 = cstr k
    · simp only [xcdn_object_set, if_pos hc, keyIn, Bool.or_eq_false_iff,
        decide_eq_false_iff_not]
      exact ⟨hx.1, hx.2⟩
    · simp only [xcdn_object_set, if_neg hc, keyIn, Bool.or_eq_false_iff,
        decide_eq_false_iff_not]
      exact ⟨hx.1, ih hx.2⟩

/-- `xcdn_object_set` preserves key well-formedness. -/
theorem keysOK_set (e : Entries) (k : List Char) (n : Node)
    (h : keysOK e = true) : keysOK (xcdn_object_set e k n) = true := by
  induction e using keysOK.induct with
  | case1 =>
    simp only [xcdn_object_set, keysOK, keyIn, Bool.not_false,
      Bool.and_true, decide_eq_true_eq]
    exact cstr_idem k
  | case2 k0 n0 t ih =>
    simp only [keysOK, Bool.and_eq_true, Bool.not_eq_true',
      decide_eq_true_eq] at h
    obtain ⟨⟨hfix, hnotin⟩, ht⟩ := h
    by_cases hc : cstr k0 = cstr k
    · simp only [xcdn_object_set, if_pos hc, keysOK, Bool.and_eq_true,
        Bool.not_eq_true', decide_eq_true_eq]
      exact ⟨⟨hfix, hnotin⟩, ht⟩
    · have hk0 : k0 ≠ cstr k := by
        intro he
        exact hc (by rw [he, cstr_idem])
      simp only [xcdn_object_set, if_neg hc, keysOK, Bool.and_eq_true,
        Bool.not_eq_true', decide_eq_true_eq]
      exact ⟨⟨hfix, keyIn_set_false t k0 k n hnotin hk0⟩, ih ht⟩

/-- `xcdn_object_set` preserves the child invariant when the inserted
node satisfies it. -/
theorem entriesND_set (e : Entries) (k : List Char) (n : Node)
    (he : entriesND e = true) (hn : nodeND n = true) :
    entriesND (xcdn_object_set e k n) = true := by
  induction e using keysOK.induct with
  | case1 => simp [xcdn_object_set, entriesND, hn]
  | case2 k0 n0 t ih =>
    simp only [entriesND, Bool.and_eq_true] at he
    by_cases hc : cstr k0 = cstr k
    · simp only [xcdn_object_set, if_pos hc, entriesND, Bool.and_eq_true]
      exact ⟨hn, he.2⟩
    · simp only [xcdn_object_set, if_neg hc, entriesND, Bool.and_eq_true]
      exact ⟨he.1, ih he.2⟩

/-- Replacing an existing key keeps the stored keys (hence positions and
length) unchanged, and the entry now holds the new node. -/
theorem object_set_replace (e : Entries) (k : List Char) (n : Node)
    (h : hasKey e k = true) :
    (xcdn_object_set e k n).keys = e.keys ∧
    xcdn_object_get (xcdn_object_set e k n) k = some n := by
  induction e using keysOK.induct with
  | case1 => simp [hasKey] at h
  | case2 k0 n0 t ih =>
    by_cases hc : cstr k0 = cstr k
    · simp [xcdn_object_set, if_pos hc, Entries.keys, xcdn_object_get, hc]
    · simp only [hasKey, Bool.or_eq_true, decide_eq_true_eq] at h
      rcases h with h | h
      · exact absurd h hc
      · have := ih h
        simp [xcdn_object_set, if_neg hc, Entries.keys, xcdn_object_get,
          hc, this.1, this.2]

/-- Setting an absent key appends one entry, whose stored key is the
C-string copy of the inserted key. -/
theorem object_set_append (e : Entries) (k : List Char) (n : Node)
    (h : hasKey e k = false) :
    (xcdn_object_set e k n).keys = e.keys ++ [cstr k] := by
  induction e using keysOK.induct with
  | case1 => simp [xcdn_object_set, Entries.keys]
  | case2 k0 n0 t ih =>
    simp only [hasKey, Bool.or_eq_false_iff, decide_eq_false_iff_not] at h
    simp [xcdn_object_set, if_neg h.1, Entries.keys, ih h.2]

/-- A key occurring among the stored keys is found by `keyIn`. -/
theorem keyIn_of_mem (x : List Char) (t : Entries) (h : x ∈ t.keys) :
    keyIn x t = true := by
  induction t using keysOK.induct with
  | case1 => simp [Entries.keys] at h
  | case2 k1 n1 t1 ih =>
    simp only [Entries.keys, List.mem_cons] at h
    rcases h with h | h
    · simp [keyIn, h]
    · simp [keyIn, ih h]

/-- Well-formed keys are pairwise distinct. -/
theorem keysOK_nodup (e : Entries) (h : keysOK e = true) :
    e.keys.Nodup := by
  induction e using keysOK.induct with
  | case1 => simp [Entries.keys]
  | case2 k0 n0 t ih =>
    simp only [keysOK, Bool.and_eq_true, Bool.not_eq_true',
      decide_eq_true_eq] at h
    obtain ⟨⟨hfix, hnotin⟩, ht⟩ := h
    simp only [Entries.keys, List.nodup_cons]
    refine ⟨?_, ih ht⟩
    intro hmem
    rw [keyIn_of_mem k0 t hmem] at hnotin
    cases hnotin
/-- `Nodes.snoc` preserves the invariant. -/
theorem nodesND_snoc (items : Nodes) (n : Node)
    (hi : nodesND items = true) (hn : nodeND n = true) :
    nodesND (items.snoc n) = true := by
  induction items, n using Nodes.snoc.induct with
  | case1 n => simp [Nodes.snoc, nodesND, hn]
  | case2 h t n ih =>
    simp only [nodesND, Bool.and_eq_true] at hi
    simp only [Nodes.snoc, nodesND, Bool.and_eq_true]
    exact ⟨hi.1, ih hi.2 hn⟩

/-- `Values.snoc` preserves the invariant. -/
theorem valsND_snoc (args : Values) (v : Value)
    (ha : valsND args = true) (hv : valND v = true) :
    valsND (args.snoc v) = true := by
  induction args, v using Values.snoc.induct with
  | case1 v => simp [Values.snoc, valsND, hv]
  | case2 h t v ih =>
    simp only [valsND, Bool.and_eq_true] at ha
    simp only [Values.snoc, valsND, Bool.and_eq_true]
    exact ⟨ha.1, ih ha.2 hv⟩

/-- `Anns.snoc` preserves the invariant when the new arguments do. -/
theorem annsND_snoc (anns : Anns) (nm : List Char) (args : Values)
    (ha : annsND anns = true) (hargs : valsND args = true) :
    annsND (anns.snoc nm args) = true := by
  induction anns, nm, args using Anns.snoc.induct with
  | case1 nm args => simp [Anns.snoc, annsND, hargs]
  | case2 n0 a0 t nm args ih =>
    simp only [annsND, Bool.and_eq_true] at ha
    simp only [Anns.snoc, annsND, Bool.and_eq_true]
    exact ⟨ha.1, ih ha.2 hargs⟩

/-- Appending a directive preserves the invariant. -/
theorem dirsND_append (a : List (List Char × Value)) (d : List Char × Value)
    (ha : dirsND a = true) (hd : valND d.2 = true) :
    dirsND (a ++ [d]) = true := by
  induction a with
  | nil => simp [dirsND, hd]
  | cons x t ih =>
    simp only [dirsND, Bool.and_eq_true] at ha
    simp only [List.cons_append, dirsND, Bool.and_eq_true]
    exact ⟨ha.1, ih ha.2⟩

/-- Appending a stream node preserves the invariant. -/
theorem streamND_append (a : List Node) (n : Node)
    (ha : streamND a = true) (hn : nodeND n = true) :
    streamND (a ++ [n]) = true := by
  induction a with
  | nil => simp [streamND, hn]
  | cons x t ih =>
    simp only [streamND, Bool.and_eq_true] at ha
    simp only [List.cons_append, streamND, Bool.and_eq_true]
    exact ⟨ha.1, ih ha.2⟩
/-- One step of `parse_value` keeps the invariant, given it for the
object and array loops at the inner fuel. -/
theorem parse_value_ND_step (f : Nat)
    (iho : ∀ entries p v p2, keysOK entries = true →
      entriesND entries = true →
      parse_object f entries p = some (some v, p2) → valND v = true)
    (iha : ∀ items p v p2, nodesND items = true →
      parse_array f items p = some (some v, p2) → valND v = true) :
    ∀ p v p2, parse_value (f + 1) p = some (some v, p2) →
      valND v = true := by
  intro p v p2 h
  simp only [parse_value] at h
  split at h
  · simp at h
  · split at h
    · exact iho .nil _ v p2 rfl rfl h
    · exact iha .nil _ v p2 rfl h
    · simp only [Option.some.injEq, Prod.mk.injEq] at h
      exact h.1 ▸ rfl
    · simp only [Option.some.injEq, Prod.mk.injEq] at h
      exact h.1 ▸ rfl
    · simp only [Option.some.injEq, Prod.mk.injEq] at h
      exact h.1 ▸ rfl
    · simp only [Option.some.injEq, Prod.mk.injEq] at h
      exact h.1 ▸ rfl
    · simp only [Option.some.injEq, Prod.mk.injEq] at h
      exact h.1 ▸ rfl
    · simp only [Option.some.injEq, Prod.mk.injEq] at h
      exact h.1 ▸ rfl
    · simp only [Option.some.injEq, Prod.mk.injEq] at h
      exact h.1 ▸ rfl
    · simp only [Option.some.injEq, Prod.mk.injEq] at h
      exact h.1 ▸ rfl
    · split at h
      · simp only [Option.some.injEq, Prod.mk.injEq] at h
        exact h.1 ▸ rfl
      · simp at h
    · split at h
      · simp only [Option.some.injEq, Prod.mk.injEq] at h
        exact h.1 ▸ rfl
      · simp at h
    · simp only [Option.some.injEq, Prod.mk.injEq] at h
      exact h.1 ▸ rfl
    · simp only [Option.some.injEq, Prod.mk.injEq] at h
      exact h.1 ▸ rfl
    · simp at h
/-- One step of the `parse_object` loop keeps the invariant. -/
theorem parse_object_ND_step (f : Nat)
    (ihn : ∀ p n p2, parse_node f p = some (some n, p2) → nodeND n = true)
    (iho : ∀ entries p v p2, keysOK entries = true →
      entriesND entries = true →
      parse_object f entries p = some (some v, p2) → valND v = true) :
    ∀ entries p v p2, keysOK entries = true → entriesND entries = true →
      parse_object (f + 1) entries p = some (some v, p2) →
      valND v = true := by
  intro entries p v p2 hOK hND h
  simp only [parse_object] at h
  split at h
  · simp at h
  · split at h
    · simp only [Option.some.injEq, Prod.mk.injEq] at h
      refine h.1 ▸ ?_
      simp [valND, hOK, hND]
    · split at h
      · simp at h
      · split at h
        · simp at h
        · split at h
          · simp at h
          · split at h
            · exact Option.noConfusion h
            · simp at h
            · rename_i node pmid hnode
              split at h
              · simp at h
              · split at h
                · exact iho _ _ _ _ (keysOK_set _ _ _ hOK)
                    (entriesND_set _ _ _ hND (ihn _ _ _ hnode)) h
                · exact iho _ _ _ _ (keysOK_set _ _ _ hOK)
                    (entriesND_set _ _ _ hND (ihn _ _ _ hnode)) h
/-- One step of the `parse_array` loop keeps the invariant. -/
theorem parse_array_ND_step (f : Nat)
    (ihn : ∀ p n p2, parse_node f p = some (some n, p2) → nodeND n = true)
    (iha : ∀ items p v p2, nodesND items = true →
      parse_array f items p = some (some v, p2) → valND v = true) :
    ∀ items p v p2, nodesND items = true →
      parse_array (f + 1) items p = some (some v, p2) →
      valND v = true := by
  intro items p v p2 hi h
  simp only [parse_array] at h
  split at h
  · simp at h
  · split at h
    · simp only [Option.some.injEq, Prod.mk.injEq] at h
      refine h.1 ▸ ?_
      simp [valND, hi]
    · split at h
      · exact Option.noConfusion h
      · simp at h
      · rename_i node pmid hnode
        split at h
        · simp at h
        · split at h
          · exact iha _ _ _ _
              (nodesND_snoc _ _ hi (ihn _ _ _ hnode)) h
          · exact iha _ _ _ _
              (nodesND_snoc _ _ hi (ihn _ _ _ hnode)) h

/-- One step of the decoration loop keeps the invariant. -/
theorem parse_deco_ND_step (f : Nat)
    (ihg : ∀ args p vs p2, valsND args = true →
      parse_ann_args f args p = some (some vs, p2) → valsND vs = true)
    (ihd : ∀ anns tags p dt p2, annsND anns = true →
      parse_deco f anns tags p = some (some dt, p2) →
      annsND dt.1 = true) :
    ∀ anns tags p dt p2, annsND anns = true →
      parse_deco (f + 1) anns tags p = some (some dt, p2) →
      annsND dt.1 = true := by
  intro anns tags p dt p2 ha h
  simp only [parse_deco] at h
  split at h
  · simp at h
  · split at h
    · split at h
      · simp at h
      · split at h
        · simp at h
        · split at h
          · split at h
            · exact ihd _ _ _ _ _ (annsND_snoc _ _ .nil ha rfl) h
            · split at h
              · exact Option.noConfusion h
              · simp at h
              · rename_i args pmid hargs
                exact ihd _ _ _ _ _
                  (annsND_snoc _ _ _ ha (ihg .nil _ _ _ rfl hargs)) h
          · exact ihd _ _ _ _ _ (annsND_snoc _ _ .nil ha rfl) h
    · split at h
      · split at h
        · simp at h
        · split at h
          · simp at h
          · exact ihd _ _ _ _ _ ha h
      · simp only [Option.some.injEq, Prod.mk.injEq] at h
        refine h.1 ▸ ?_
        exact ha

/-- One step of the annotation-argument loop keeps the invariant. -/
theorem parse_ann_args_ND_step (f : Nat)
    (ihv : ∀ p v p2, parse_value f p = some (some v, p2) →
      valND v = true)
    (ihg : ∀ args p vs p2, valsND args = true →
      parse_ann_args f args p = some (some vs, p2) → valsND vs = true) :
    ∀ args p vs p2, valsND args = true →
      parse_ann_args (f + 1) args p = some (some vs, p2) →
      valsND vs = true := by
  intro args p vs p2 ha h
  simp only [parse_ann_args] at h
  split at h
  · exact Option.noConfusion h
  · simp at h
  · rename_i v0 pmid hval
    split at h
    · simp at h
    · split at h
      · exact ihg _ _ _ _ (valsND_snoc _ _ ha (ihv _ _ _ hval)) h
      · split at h
        · simp only [Option.some.injEq, Prod.mk.injEq] at h
          refine h.1 ▸ ?_
          exact valsND_snoc _ _ ha (ihv _ _ _ hval)
        · simp at h

/-- One step of `parse_node` keeps the invariant. -/
theorem parse_node_ND_step (f : Nat)
    (ihd : ∀ anns tags p dt p2, annsND anns = true →
      parse_deco f anns tags p = some (some dt, p2) →
      annsND dt.1 = true)
    (ihv : ∀ p v p2, parse_value f p = some (some v, p2) →
      valND v = true) :
    ∀ p n p2, parse_node (f + 1) p = some (some n, p2) →
      nodeND n = true := by
  intro p n p2 h
  simp only [parse_node] at h
  split at h
  · exact Option.noConfusion h
  · simp at h
  · rename_i dt pmid hdeco
    split at h
    · exact Option.noConfusion h
    · simp at h
    · rename_i v0 pmid2 hval
      split at h
      · simp at h
      · simp only [Option.some.injEq, Prod.mk.injEq] at h
        refine h.1 ▸ ?_
        simp only [nodeND, Bool.and_eq_true]
        exact ⟨ihd .nil _ _ _ _ rfl hdeco, ihv _ _ _ hval⟩
/-- All six mutual parse functions only ever build values satisfying the
no-duplicate-keys invariant. -/
theorem parse_ND (fuel : Nat) :
    (∀ p v p2, parse_value fuel p = some (some v, p2) →
      valND v = true) ∧
    (∀ entries p v p2, keysOK entries = true → entriesND entries = true →
      parse_object fuel entries p = some (some v, p2) → valND v = true) ∧
    (∀ items p v p2, nodesND items = true →
      parse_array fuel items p = some (some v, p2) → valND v = true) ∧
    (∀ anns tags p dt p2, annsND anns = true →
      parse_deco fuel anns tags p = some (some dt, p2) →
      annsND dt.1 = true) ∧
    (∀ args p vs p2, valsND args = true →
      parse_ann_args fuel args p = some (some vs, p2) →
      valsND vs = true) ∧
    (∀ p n p2, parse_node fuel p = some (some n, p2) →
      nodeND n = true) := by
  induction fuel with
  | zero =>
    refine ⟨?_, ?_, ?_, ?_, ?_, ?_⟩ <;> intro _ <;> intros <;>
      simp_all [parse_value, parse_object, parse_array, parse_deco,
        parse_ann_args, parse_node]
  | succ f ih =>
    obtain ⟨ihv, iho, iha, ihd, ihg, ihn⟩ := ih
    exact ⟨parse_value_ND_step f iho iha,
      parse_object_ND_step f ihn iho,
      parse_array_ND_step f ihn iha,
      parse_deco_ND_step f ihg ihd,
      parse_ann_args_ND_step f ihv ihg,
      parse_node_ND_step f ihd ihv⟩
/-- The invariant of a node gives the invariant of its value. -/
theorem nodeND_value : ∀ n : Node, nodeND n = true → valND n.value = true
  | .mk a t v, h => by
    simp only [nodeND, Bool.and_eq_true] at h
    exact h.2

/-- The prolog loop only accumulates invariant-satisfying directive
values. -/
theorem prolog_ND (fuel : Nat) :
    ∀ dirs p dirs2 p2, dirsND dirs = true →
      parse_prolog fuel dirs p = some (some dirs2, p2) →
      dirsND dirs2 = true := by
  induction fuel with
  | zero =>
    intro dirs p dirs2 p2 hd h
    simp [parse_prolog] at h
  | succ f ih =>
    intro dirs p dirs2 p2 hd h
    simp only [parse_prolog] at h
    split at h
    · split at h
      · simp at h
      · split at h
        · simp at h
        · split at h
          · simp at h
          · split at h
            · simp at h
            · split at h
              · exact Option.noConfusion h
              · simp at h
              · rename_i node pmid hnode
                have hv : valND node.value = true :=
                  nodeND_value node ((parse_ND f).2.2.2.2.2 _ _ _ hnode)
                split at h
                · exact ih _ _ _ _ (dirsND_append _ _ hd hv) h
                · exact ih _ _ _ _ (dirsND_append _ _ hd hv) h
    · simp only [Option.some.injEq, Prod.mk.injEq] at h
      exact h.1 ▸ hd

/-- The implicit-object entry loop preserves the entry invariants. -/
theorem implicit_ND (fuel : Nat) :
    ∀ entries p e2 p2, keysOK entries = true → entriesND entries = true →
      parse_implicit fuel entries p = some (some e2, p2) →
      keysOK e2 = true ∧ entriesND e2 = true := by
  induction fuel with
  | zero =>
    intro entries p e2 p2 hOK hND h
    simp [parse_implicit] at h
  | succ f ih =>
    intro entries p e2 p2 hOK hND h
    simp only [parse_implicit] at h
    split at h
    · simp at h
    · split at h
      · exact ih _ _ _ _ hOK hND h
      · split at h
        · split at h
          · simp at h
          · split at h
            · simp at h
            · split at h
              · simp at h
              · split at h
                · exact Option.noConfusion h
                · simp at h
                · rename_i node pmid hnode
                  exact ih _ _ _ _ (keysOK_set _ _ _ hOK)
                    (entriesND_set _ _ _ hND
                      ((parse_ND f).2.2.2.2.2 _ _ _ hnode)) h
        · split at h
          · simp only [Option.some.injEq, Prod.mk.injEq] at h
            exact h.1 ▸ ⟨hOK, hND⟩
          · simp at h

/-- The value-stream loop only accumulates invariant-satisfying nodes. -/
theorem stream_ND (fuel : Nat) :
    ∀ nodes p vs p2, streamND nodes = true →
      parse_stream fuel nodes p = some (some vs, p2) →
      streamND vs = true := by
  induction fuel with
  | zero =>
    intro nodes p vs p2 hs h
    simp [parse_stream] at h
  | succ f ih =>
    intro nodes p vs p2 hs h
    simp only [parse_stream] at h
    split at h
    · simp only [Option.some.injEq, Prod.mk.injEq] at h
      exact h.1 ▸ hs
    · split at h
      · simp at h
      · split at h
        · exact Option.noConfusion h
        · simp at h
        · rename_i n pmid hnode
          exact ih _ _ _ _ (streamND_append _ _ hs
            ((parse_ND f).2.2.2.2.2 _ _ _ hnode)) h
/-- The document body only produces invariant-satisfying value streams. -/
theorem doc_body_ND (fuel : Nat) :
    ∀ p vs p2, parse_doc_body fuel p = some (some vs, p2) →
      streamND vs = true := by
  cases fuel with
  | zero =>
    intro p vs p2 h
    simp [parse_doc_body] at h
  | succ f =>
    intro p vs p2 h
    simp only [parse_doc_body] at h
    split at h
    · split at h
      · split at h
        · exact Option.noConfusion h
        · simp at h
        · rename_i node pmid hnode
          split at h
          · simp at h
          · split at h
            · exact Option.noConfusion h
            · simp at h
            · rename_i entries pend himp
              simp only [Option.some.injEq, Prod.mk.injEq] at h
              refine h.1 ▸ ?_
              have he := implicit_ND f _ _ _ _
                (keysOK_set .nil _ _ rfl)
                (entriesND_set .nil _ _ rfl
                  ((parse_ND f).2.2.2.2.2 _ _ _ hnode)) himp
              simp [streamND, nodeND, annsND, valND, he.1, he.2]
      · split at h
        · exact stream_ND f _ _ _ _
            (by simp [streamND, nodeND, annsND, valND]) h
        · simp at h
    · split at h
      · simp only [Option.some.injEq, Prod.mk.injEq] at h
        exact h.1 ▸ rfl
      · split at h
        · exact Option.noConfusion h
        · simp at h
        · rename_i first pmid hnode
          exact stream_ND f _ _ _ _
            (by simp [streamND, (parse_ND f).2.2.2.2.2 _ _ _ hnode]) h

/-- A successfully parsed document satisfies the invariant. -/
theorem document_ND (fuel : Nat) :
    ∀ p doc p2, parse_document fuel p = some (some doc, p2) →
      docND doc = true := by
  cases fuel with
  | zero =>
    intro p doc p2 h
    simp [parse_document] at h
  | succ f =>
    intro p doc p2 h
    simp only [parse_document] at h
    split at h
    · exact Option.noConfusion h
    · simp at h
    · rename_i dirs pmid hpro
      split at h
      · exact Option.noConfusion h
      · simp at h
      · rename_i vs pend hbody
        simp only [Option.some.injEq, Prod.mk.injEq] at h
        refine h.1 ▸ ?_
        simp only [docND, Bool.and_eq_true]
        exact ⟨prolog_ND f [] _ _ _ rfl hpro, doc_body_ND f _ _ _ hbody⟩

/-- A document returned by `parseOk` satisfies the invariant. -/
theorem parseOk_ND : ∀ (s : List Char) (doc : Doc),
    parseOk s = some doc → docND doc = true := by
  intro s doc h
  unfold parseOk at h
  split at h
  · rename_i d hxp
    simp only [Option.some.injEq] at h
    subst h
    unfold xcdn_parse at hxp
    split at hxp
    · exact Option.noConfusion hxp
    · rename_i od pend hdoc
      split at hxp
      · split at hxp
        · simp at hxp
        · simp only [Option.some.injEq, Prod.mk.injEq] at hxp
          rename_i d0 _
          have hd0 : d0 = d := by
            have := hxp.1
            simpa using this
          subst hd0
          exact document_ND _ _ _ _ hdoc
      · simp at hxp
  · exact Option.noConfusion h
/-- C8: key uniqueness.  (1) Every document returned by a successful
parse satisfies `docND`, which requires `keysOK` of every reachable
Object (in stream nodes, prolog directive values, array items, nested
objects and annotation arguments); (2) `keysOK` keys are pairwise
distinct, so `key_at i = key_at j` forces `i = j`; (3) the invariant is
maintained exactly as claimed: `xcdn_object_set` on an existing key
replaces that entry's node in place, keeping the stored key list (hence
the entry's position) unchanged, and (4) only an absent key appends a
(single) new entry. -/
theorem object_key_uniqueness :
    (∀ s doc, parseOk s = some doc → docND doc = true) ∧
    (∀ e, keysOK e = true → e.keys.Nodup) ∧
    (∀ e k n, hasKey e k = true →
      (xcdn_object_set e k n).keys = e.keys ∧
      xcdn_object_get (xcdn_object_set e k n) k = some n) ∧
    (∀ e k n, hasKey e k = false →
      (xcdn_object_set e k n).keys = e.keys ++ [cstr k]) :=
  ⟨parseOk_ND, keysOK_nodup, object_set_replace, object_set_append⟩

/-- C8 witness: the duplicate-key input `{a: 1, a: 2, b: 3}` parses to
an object with invariant intact; explicit replace/append cases of
`xcdn_object_set`. -/
theorem object_key_uniqueness_witness :
    docND (Doc.mk [] [Node.mk .nil [] (.vobj (.cons ['a']
        (Node.mk .nil [] (.vint 2))
        (.cons ['b'] (Node.mk .nil [] (.vint 3)) .nil)))]) = true ∧
    (Entries.cons ['a'] (Node.mk .nil [] .vnull)
        (.cons ['b'] (Node.mk .nil [] .vnull) .nil)).keys.Nodup ∧
    ((xcdn_object_set (Entries.cons ['a'] (Node.mk .nil [] .vnull) .nil)
        ['a'] (Node.mk .nil [] (.vint 9))).keys =
      (Entries.cons ['a'] (Node.mk .nil [] .vnull) .nil).keys ∧
      xcdn_object_get (xcdn_object_set
        (Entries.cons ['a'] (Node.mk .nil [] .vnull) .nil)
        ['a'] (Node.mk .nil [] (.vint 9))) ['a'] =
        some (Node.mk .nil [] (.vint 9))) ∧
    (xcdn_object_set (Entries.cons ['a'] (Node.mk .nil [] .vnull) .nil)
        ['b'] (Node.mk .nil [] (.vint 9))).keys =
      (Entries.cons ['a'] (Node.mk .nil [] .vnull) .nil).keys ++
        [cstr ['b']] :=
  ⟨object_key_uniqueness.1 "{a: 1, a: 2, b: 3}".toList
      (Doc.mk [] [Node.mk .nil [] (.vobj (.cons ['a']
        (Node.mk .nil [] (.vint 2))
        (.cons ['b'] (Node.mk .nil [] (.vint 3)) .nil)))]) rfl,
   object_key_uniqueness.2.1 _ (by decide),
   object_key_uniqueness.2.2.1 _ ['a'] _ (by decide),
   object_key_uniqueness.2.2.2 _ ['b'] _ (by decide)⟩


/-! ## Claim C4: signed 64-bit integer bounds

`strtoll` accepts the whole signed 64-bit range `[-2^63, 2^63 - 1]`.  The
claim's positive direction is right (`2^63 - 1` parses, `2^63` fails with
`INVALID_NUMBER`), but `-(2^63 - 1) - 1 = -2^63` is still representable
and lexes successfully, so "one past ±(2^63−1) fails" is wrong on the
negative side; the failing negative boundary is `-2^63 - 1`. -/
/-- C4 counterexample: the literal `-9223372036854775808`, whose magnitude
is one past `2^63 - 1`, lexes successfully to an INT token (no
`INVALID_NUMBER`), contradicting the claim as stated. -/
theorem int_bound_counterexample :
    xcdn_lexer_next "-9223372036854775808".toList =
      (.int (-(2 ^ 63)), [], none) ∧
    (xcdn_lexer_next "-9223372036854775808".toList).2.2 ≠
      some .invalidNumber :=
  ⟨rfl, by decide⟩

/-- C4 amended: integers are parsed as signed 64-bit with range
`[-2^63, 2^63 - 1]`: both `±(2^63 - 1)` parse, `+2^63` fails with
`INVALID_NUMBER`, `-2^63` parses to an INT token with that value, and
`-2^63 - 1` fails with `INVALID_NUMBER`. -/
theorem int_bound_amended :
    xcdn_lexer_next "9223372036854775807".toList =
      (.int (2 ^ 63 - 1), [], none) ∧
    xcdn_lexer_next "+9223372036854775807".toList =
      (.int (2 ^ 63 - 1), [], none) ∧
    xcdn_lexer_next "-9223372036854775807".toList =
      (.int (-(2 ^ 63 - 1)), [], none) ∧
    xcdn_lexer_next "9223372036854775808".toList =
      (.eof, [], some .invalidNumber) ∧
    xcdn_lexer_next "+9223372036854775808".toList =
      (.eof, [], some .invalidNumber) ∧
    xcdn_lexer_next "-9223372036854775808".toList =
      (.int (-(2 ^ 63)), [], none) ∧
    xcdn_lexer_next "-9223372036854775809".toList =
      (.eof, [], some .invalidNumber) :=
  ⟨rfl, rfl, rfl, rfl, rfl, rfl, rfl⟩


/-! ## Claim C9: 127-byte truncation in read_number

`read_number` consumes the whole numeric lexeme but copies only
`min(len, 127)` bytes into the conversion buffer `char tmp[128]`;
conversion (and its out-of-range check) sees the truncated prefix.  For an
all-digit input the lexeme is the entire input, so the theorem exhibits
both parts: the remaining input is `[]` (everything consumed) while the
token value comes from `take 127`; 127 zeros followed by `7` convert to 0,
with the final digit consumed but never converted. -/
/-- A digit differs from any non-digit character. -/
theorem digit_ne_of {c : Char} (x : Char) (h : is_digit c = true)
    (hx : is_digit x = false) : c ≠ x :=
  fun he => by rw [he, hx] at h; exact Bool.false_ne_true h

/-- Digits are not lexer whitespace. -/
theorem digit_not_ws {c : Char} (h : is_digit c = true) : is_ws c = false := by
  cases hw : is_ws c
  · rfl
  · exfalso
    rcases of_decide_eq_true hw with h1 | h1 | h1 | h1 <;>
      (subst h1; exact absurd h (by decide))

/-- Skipping is the identity when the head is neither whitespace nor a
possible comment opener. -/
theorem skip_go_top_id {c : Char} (rest : List Char)
    (h1 : is_ws c = false) (h2 : c ≠ '/') :
    skip_go (c :: rest) .top = c :: rest := by
  unfold skip_go
  split <;> simp_all

/-- The number loop consumes an all-digit input entirely. -/
theorem num_loop_all_digits (ds : List Char)
    (hds : ∀ c ∈ ds, is_digit c = true) :
    num_loop ds false false true = (ds, [], false, false, true) := by
  induction ds with
  | nil => rfl
  | cons c rest ih =>
    have hc : is_digit c = true := hds c (List.mem_cons_self c rest)
    unfold num_loop
    rw [if_pos hc, ih (fun x hx => hds x (List.mem_cons_of_mem c hx))]

/-- On an all-digit input `read_number` consumes everything and converts
the first (at most) 127 bytes with `strtoll`. -/
theorem read_number_all_digits (c : Char) (rest : List Char)
    (hds : ∀ x ∈ c :: rest, is_digit x = true) :
    read_number (c :: rest) =
      match strtoll ((c :: rest).take 127) with
      | some v => (Tok.int v, [], none)
      | none => (Tok.eof, [], some ErrKind.invalidNumber) := by
  have hc : is_digit c = true := hds c (List.mem_cons_self c rest)
  have hplus : ¬(c = '+' ∨ c = '-') := by
    rintro (h1 | h1) <;> (subst h1; exact absurd hc (by decide))
  unfold read_number
  simp only [if_neg hplus]
  have hrest : ∀ x ∈ rest, is_digit x = true :=
    fun x hx => hds x (List.mem_cons_of_mem c hx)
  have hl : num_loop (c :: rest) false false false =
      (c :: rest, [], false, false, true) := by
    unfold num_loop
    rw [if_pos hc, num_loop_all_digits rest hrest]
  rw [hl]
  simp only [List.nil_append]
  rfl

/-- Lexer-level version of `read_number_all_digits`. -/
theorem lexer_next_all_digits (ds : List Char)
    (hds : ∀ c ∈ ds, is_digit c = true) (hne : ds ≠ []) :
    xcdn_lexer_next ds =
      match strtoll (ds.take 127) with
      | some v => (Tok.int v, [], none)
      | none => (Tok.eof, [], some ErrKind.invalidNumber) := by
  match ds, hne with
  | c :: rest, _ =>
    have hc : is_digit c = true := hds c (List.mem_cons_self c rest)
    have hskip : skip_ws_and_comments (c :: rest) = c :: rest :=
      skip_go_top_id rest (digit_not_ws hc) (digit_ne_of '/' hc (by decide))
    have e1 : c ≠ '"' := digit_ne_of _ hc (by decide)
    have e2 : c ≠ '{' := digit_ne_of _ hc (by decide)
    have e3 : c ≠ '}' := digit_ne_of _ hc (by decide)
    have e4 : c ≠ '[' := digit_ne_of _ hc (by decide)
    have e5 : c ≠ ']' := digit_ne_of _ hc (by decide)
    have e6 : c ≠ '(' := digit_ne_of _ hc (by decide)
    have e7 : c ≠ ')' := digit_ne_of _ hc (by decide)
    have e8 : c ≠ ':' := digit_ne_of _ hc (by decide)
    have e9 : c ≠ ',' := digit_ne_of _ hc (by decide)
    have e10 : c ≠ '$' := digit_ne_of _ hc (by decide)
    have e11 : c ≠ '#' := digit_ne_of _ hc (by decide)
    have e12 : c ≠ '@' := digit_ne_of _ hc (by decide)
    simp only [xcdn_lexer_next, hskip, e1, e2, e3, e4, e5, e6, e7, e8, e9,
      e10, e11, e12, hc, false_and, if_false, or_true, if_true,
      ite_false, ite_true]
    rw [read_number_all_digits c rest hds]

/-- C9: a numeric lexeme is consumed whole but converted from its first
(at most) 127 bytes: for any all-digit input the remaining input is empty
and the token is `strtoll` of `take 127`; a 128-byte lexeme of 127 zeros
and a final `7` yields INT 0 (the `7` is consumed, not converted), while
the 127-byte version yields INT 7. -/
theorem read_number_127_truncation :
    (∀ ds : List Char, (∀ c ∈ ds, is_digit c = true) → ds ≠ [] →
      xcdn_lexer_next ds =
        match strtoll (ds.take 127) with
        | some v => (Tok.int v, [], none)
        | none => (Tok.eof, [], some ErrKind.invalidNumber)) ∧
    xcdn_lexer_next (List.replicate 127 '0' ++ ['7']) = (.int 0, [], none) ∧
    xcdn_lexer_next (List.replicate 126 '0' ++ ['7']) = (.int 7, [], none) :=
  ⟨lexer_next_all_digits, by decide, by decide⟩

/-- C9 witness: the general statement applied at the two-digit lexeme
`42`. -/
theorem read_number_127_truncation_witness :
    xcdn_lexer_next ['4', '2'] = (.int 42, [], none) := by
  have h := read_number_127_truncation.1 ['4', '2'] (by decide) (by decide)
  simpa using h


/-! ## Claim C3: typed-quoted literals

The lexer reads the body of a `X"…"` literal with the same `read_string`
used for plain strings, which DOES decode the escapes `\"` and `\\`
(everything else is preserved as-is).  So "no decoding applied to any
escape" is wrong; the amended statement decodes exactly those two. -/
/-- Spec-side description of a complete string-literal body and the
payload the lexer produces for it, per the amended C3: every escape
sequence is preserved as-is except that the quote escape and the
backslash escape are decoded to the bare character; the four hex digits
of a unicode escape are checked; the result is `none` when the text is
not one complete body (an unescaped quote, a trailing backslash, an
unknown or malformed escape). -/
def lexEscBody : List Char → Option (List Char)
  | [] => some []
  | '"' :: _ => none
  | '\\' :: [] => none
  | '\\' :: 'u' :: h1 :: h2 :: h3 :: h4 :: rest4 =>
    if isxdigit h1 && isxdigit h2 && isxdigit h3 && isxdigit h4 then
      (fun p => '\\' :: 'u' :: h1 :: h2 :: h3 :: h4 :: p) <$> lexEscBody rest4
    else none
  | '\\' :: 'u' :: _ => none
  | '\\' :: e :: rest =>
    if e = '"' then (fun p => '"' :: p) <$> lexEscBody rest
    else if e = '\\' then (fun p => '\\' :: p) <$> lexEscBody rest
    else if e = '/' ∨ e = 'b' ∨ e = 'f' ∨ e = 'n' ∨ e = 'r' ∨ e = 't' then
      (fun p => '\\' :: e :: p) <$> lexEscBody rest
    else none
  | c :: rest => (fun p => c :: p) <$> lexEscBody rest

/-- Unfolding of `lexEscBody` on a two-byte escape (any `e` other than
`u`). -/
theorem lexEscBody_esc (e : Char) (rest : List Char) (hu : ¬(e = 'u')) :
    lexEscBody ('\\' :: e :: rest) =
      (if e = '"' then (fun p => '"' :: p) <$> lexEscBody rest
       else if e = '\\' then (fun p => '\\' :: p) <$> lexEscBody rest
       else if e = '/' ∨ e = 'b' ∨ e = 'f' ∨ e = 'n' ∨ e = 'r' ∨ e = 't' then
         (fun p => '\\' :: e :: p) <$> lexEscBody rest
       else none) := by
  rw [lexEscBody.eq_def]
  split
  case h_7 g1 g2 g3 heq =>
    injection heq with hc hr
    exact absurd hr.symm (g3 _ _ hc.symm)
  all_goals simp_all

/-- Unfolding of `lexEscBody` on an ordinary character. -/
theorem lexEscBody_plain (c : Char) (rest : List Char)
    (h1 : ¬(c = '"')) (h2 : ¬(c = '\\')) :
    lexEscBody (c :: rest) = (fun p => c :: p) <$> lexEscBody rest := by
  rw [lexEscBody.eq_def]
  split
  case h_7 g1 g2 g3 heq =>
    injection heq with hc hr
    subst hc; subst hr; rfl
  all_goals simp_all

/-- Unfolding of `read_str_body` on a two-byte escape (any `e` other than
`u`). -/
theorem read_str_body_esc_eq (e : Char) (rest : List Char) (hu : ¬(e = 'u')) :
    read_str_body ('\\' :: e :: rest) =
      (if e = '"' then esc_cons '"' (read_str_body rest)
       else if e = '\\' then esc_cons '\\' (read_str_body rest)
       else if e = '/' ∨ e = 'b' ∨ e = 'f' ∨ e = 'n' ∨ e = 'r' ∨ e = 't' then
         esc_cons '\\' (esc_cons e (read_str_body rest))
       else .error .invalidEscape) := by
  rw [read_str_body.eq_def]
  split
  case h_7 g1 g2 g3 heq =>
    injection heq with hc hr
    exact absurd hr.symm (g3 _ _ hc.symm)
  all_goals simp_all

/-- Unfolding of `read_str_body` on an ordinary character. -/
theorem read_str_body_plain (c : Char) (rest : List Char)
    (h1 : ¬(c = '"')) (h2 : ¬(c = '\\')) :
    read_str_body (c :: rest) = esc_cons c (read_str_body rest) := by
  rw [read_str_body.eq_def]
  split
  case h_7 g1 g2 g3 heq =>
    injection heq with hc hr
    subst hc; subst hr; rfl
  all_goals simp_all


/-- The lexer's string scan agrees with `lexEscBody` on every complete
body: it stops exactly at the closing quote and returns the described
payload. -/
theorem read_str_body_esc (body : List Char) : ∀ payload rest,
    lexEscBody body = some payload →
    read_str_body (body ++ '"' :: rest) = .ok (payload, rest) := by
  induction body using lexEscBody.induct with
  | case1 =>
    intro payload rest h
    simp only [lexEscBody, Option.some.injEq] at h
    subst h
    rfl
  | case2 rest0 =>
    intro _ _ h
    rw [show lexEscBody ('"' :: rest0) = none from rfl] at h
    exact absurd h (by simp)
  | case3 =>
    intro _ _ h
    rw [show lexEscBody ['\\'] = none from rfl] at h
    exact absurd h (by simp)
  | case4 h1 h2 h3 h4 rest4 hhex ih =>
    intro payload rest h
    rw [show lexEscBody ('\\' :: 'u' :: h1 :: h2 :: h3 :: h4 :: rest4) =
        if isxdigit h1 && isxdigit h2 && isxdigit h3 && isxdigit h4 then
          (fun p => '\\' :: 'u' :: h1 :: h2 :: h3 :: h4 :: p) <$>
            lexEscBody rest4
        else none from rfl, if_pos hhex] at h
    rcases hrec : lexEscBody rest4 with _ | p
    · rw [hrec] at h; exact absurd h (by simp)
    · rw [hrec] at h
      simp only [Option.map_some, Option.some.injEq] at h
      subst h
      rw [show ('\\' :: 'u' :: h1 :: h2 :: h3 :: h4 :: rest4) ++ '"' :: rest =
          '\\' :: 'u' :: h1 :: h2 :: h3 :: h4 :: (rest4 ++ '"' :: rest)
          from rfl,
        show read_str_body
            ('\\' :: 'u' :: h1 :: h2 :: h3 :: h4 :: (rest4 ++ '"' :: rest)) =
          if isxdigit h1 && isxdigit h2 && isxdigit h3 && isxdigit h4 then
            esc_cons '\\' (esc_cons 'u' (esc_cons h1 (esc_cons h2 (esc_cons h3
              (esc_cons h4 (read_str_body (rest4 ++ '"' :: rest)))))))
          else .error .invalidEscape from rfl,
        if_pos hhex, ih p rest hrec]
      rfl
  | case5 h1 h2 h3 h4 rest4 hhex =>
    intro _ _ h
    rw [show lexEscBody ('\\' :: 'u' :: h1 :: h2 :: h3 :: h4 :: rest4) =
        if isxdigit h1 && isxdigit h2 && isxdigit h3 && isxdigit h4 then
          (fun p => '\\' :: 'u' :: h1 :: h2 :: h3 :: h4 :: p) <$>
            lexEscBody rest4
        else none from rfl, if_neg hhex] at h
    exact absurd h (by simp)
  | case6 tail hshort =>
    intro _ _ h
    match tail, hshort with
    | [], _ =>
      rw [show lexEscBody ('\\' :: 'u' :: ([] : List Char)) = none from rfl] at h
      exact absurd h (by simp)
    | [c1], _ =>
      rw [show lexEscBody ('\\' :: 'u' :: [c1]) = none from rfl] at h
      exact absurd h (by simp)
    | [c1, c2], _ =>
      rw [show lexEscBody ('\\' :: 'u' :: [c1, c2]) = none from rfl] at h
      exact absurd h (by simp)
    | [c1, c2, c3], _ =>
      rw [show lexEscBody ('\\' :: 'u' :: [c1, c2, c3]) = none from rfl] at h
      exact absurd h (by simp)
    | c1 :: c2 :: c3 :: c4 :: r, hs => exact (hs c1 c2 c3 c4 r rfl).elim
  | case7 rest0 hg1 hg2 ih =>
    intro payload rest h
    rw [show lexEscBody ('\\' :: '"' :: rest0) =
        (fun p => '"' :: p) <$> lexEscBody rest0 from rfl] at h
    rcases hrec : lexEscBody rest0 with _ | p
    · rw [hrec] at h; exact absurd h (by simp)
    · rw [hrec] at h
      simp only [Option.map_some, Option.some.injEq] at h
      subst h
      rw [show ('\\' :: '"' :: rest0) ++ '"' :: rest =
          '\\' :: '"' :: (rest0 ++ '"' :: rest) from rfl,
        show read_str_body ('\\' :: '"' :: (rest0 ++ '"' :: rest)) =
          esc_cons '"' (read_str_body (rest0 ++ '"' :: rest)) from rfl,
        ih p rest hrec]
      rfl
  | case8 rest0 hg1 hg2 hg3 ih =>
    intro payload rest h
    rw [show lexEscBody ('\\' :: '\\' :: rest0) =
        (fun p => '\\' :: p) <$> lexEscBody rest0 from rfl] at h
    rcases hrec : lexEscBody rest0 with _ | p
    · rw [hrec] at h; exact absurd h (by simp)
    · rw [hrec] at h
      simp only [Option.map_some, Option.some.injEq] at h
      subst h
      rw [show ('\\' :: '\\' :: rest0) ++ '"' :: rest =
          '\\' :: '\\' :: (rest0 ++ '"' :: rest) from rfl,
        show read_str_body ('\\' :: '\\' :: (rest0 ++ '"' :: rest)) =
          esc_cons '\\' (read_str_body (rest0 ++ '"' :: rest)) from rfl,
        ih p rest hrec]
      rfl
  | case9 e rest0 hg1 hg2 hne1 hne2 hyes ih =>
    intro payload rest h
    rw [lexEscBody_esc e rest0 (fun hh => hg2 hh), if_neg hne1, if_neg hne2,
      if_pos hyes] at h
    rcases hrec : lexEscBody rest0 with _ | p
    · rw [hrec] at h; exact absurd h (by simp)
    · rw [hrec] at h
      simp only [Option.map_some, Option.some.injEq] at h
      subst h
      rw [show ('\\' :: e :: rest0) ++ '"' :: rest =
          '\\' :: e :: (rest0 ++ '"' :: rest) from rfl,
        read_str_body_esc_eq e _ (fun hh => hg2 hh), if_neg hne1,
        if_neg hne2, if_pos hyes, ih p rest hrec]
      rfl
  | case10 e rest0 hg1 hg2 hne1 hne2 hne3 =>
    intro _ _ h
    rw [lexEscBody_esc e rest0 (fun hh => hg2 hh), if_neg hne1, if_neg hne2,
      if_neg hne3] at h
    exact absurd h (by simp)
  | case11 c rest0 hc1 hc2 hc3 hc4 hc5 ih =>
    intro payload rest h
    have hcq : ¬(c = '"') := fun hh => hc1 hh
    have hcb : ¬(c = '\\') := by
      intro hh
      cases rest0 with
      | nil => exact hc2 hh rfl
      | cons e r => exact hc5 e r hh rfl
    rw [lexEscBody_plain c rest0 hcq hcb] at h
    rcases hrec : lexEscBody rest0 with _ | p
    · rw [hrec] at h; exact absurd h (by simp)
    · rw [hrec] at h
      simp only [Option.map_some, Option.some.injEq] at h
      subst h
      rw [show (c :: rest0) ++ '"' :: rest = c :: (rest0 ++ '"' :: rest)
          from rfl,
        read_str_body_plain c _ hcq hcb, ih p rest hrec]
      rfl

/-- C3 amended: for every typed-quoted literal `X"body"` with
`X ∈ {d,b,u,t,r}`, the lexer produces the corresponding typed token whose
payload is the body with every escape sequence preserved as-is, EXCEPT
that `\"` and `\\` are decoded to the bare quote and backslash (as
described by `lexEscBody`). -/
theorem typed_quoted_amended (x : Char)
    (hx : x = 'd' ∨ x = 'b' ∨ x = 'u' ∨ x = 't' ∨ x = 'r')
    (body payload rest : List Char) (hb : lexEscBody body = some payload) :
    xcdn_lexer_next (x :: '"' :: (body ++ '"' :: rest)) =
      (typedTok x payload, rest, none) := by
  have hread := read_str_body_esc body payload rest hb
  rcases hx with h | h | h | h | h <;> subst h
  · have hskip : skip_ws_and_comments
        ('d' :: '"' :: (body ++ '"' :: rest)) =
        'd' :: '"' :: (body ++ '"' :: rest) :=
      skip_go_top_id _ (by decide) (by decide)
    simp [xcdn_lexer_next, hskip, hread, typedTok, is_digit]
  · have hskip : skip_ws_and_comments
        ('b' :: '"' :: (body ++ '"' :: rest)) =
        'b' :: '"' :: (body ++ '"' :: rest) :=
      skip_go_top_id _ (by decide) (by decide)
    simp [xcdn_lexer_next, hskip, hread, typedTok, is_digit]
  · have hskip : skip_ws_and_comments
        ('u' :: '"' :: (body ++ '"' :: rest)) =
        'u' :: '"' :: (body ++ '"' :: rest) :=
      skip_go_top_id _ (by decide) (by decide)
    simp [xcdn_lexer_next, hskip, hread, typedTok, is_digit]
  · have hskip : skip_ws_and_comments
        ('t' :: '"' :: (body ++ '"' :: rest)) =
        't' :: '"' :: (body ++ '"' :: rest) :=
      skip_go_top_id _ (by decide) (by decide)
    simp [xcdn_lexer_next, hskip, hread, typedTok, is_digit]
  · have hskip : skip_ws_and_comments
        ('r' :: '"' :: (body ++ '"' :: rest)) =
        'r' :: '"' :: (body ++ '"' :: rest) :=
      skip_go_top_id _ (by decide) (by decide)
    simp [xcdn_lexer_next, hskip, hread, typedTok, is_digit]

/-- C3 counterexample: in `d"\\\\"` the two-character body is the escape
backslash-backslash, which the lexer DECODES to a single backslash, so the
payload is not the body "with escapes preserved as-is, no decoding applied
to any escape". -/
theorem typed_quoted_counterexample :
    xcdn_lexer_next ['d', '"', '\\', '\\', '"'] =
      (.dQ ['\\'], [], none) ∧
    (Tok.dQ ['\\'] : Tok) ≠ .dQ ['\\', '\\'] :=
  ⟨rfl, by decide⟩

/-- C3 witness: a `t"2025"` literal lexed through the amended theorem. -/
theorem typed_quoted_amended_witness :
    xcdn_lexer_next ['t', '"', '2', '0', '2', '5', '"', ','] =
      (.tQ ['2', '0', '2', '5'], [','], none) := by
  have h := typed_quoted_amended 't' (by decide) ['2', '0', '2', '5']
    ['2', '0', '2', '5'] [','] (by decide)
  simpa [typedTok] using h

end XCDN
